import Mathlib

/-!
Verification of the noun library (atoms, cells, nouns, the jam/cue codec and
axis addressing) against its specification.

The definitions below are a shallow embedding of the Rust sources:

* `src/atom.rs` — the `Atom` struct (little-endian byte vector plus a
  cached bit length), the bitwise `Builder`, and the bitwise iterator.
* `src/cell.rs`, `src/noun.rs` — the `Noun` enum and the `jam` encoder and
  `cue` decoder implemented on it (`impl Jam for Noun` / `impl Cue for Noun`).
* `src/noun/types.rs`, `src/types/noun.rs` — `get` (axis addressing); both
  files contain the identical function body.
* `src/serdes.rs` — the trait-level `decode_len` used by the generic decoder.

Machine integers (`u8`, `u64`, `usize`) are modelled as `Nat`; every
bit-twiddling operation (`|=`, `&= !(1 << i)`, `leading_zeros`) is translated
to the corresponding `Nat` operation, with `u64::BITS - x.leading_zeros()`
rendered as `Nat.size x` (valid for `x < 2 ^ 64`) and `!(1 << i)` on `u64`
rendered as `(2 ^ 64 - 1) ^^^ (1 <<< i)`.  Reference-counted sharing
(`Rc<Noun>`) affects neither structural equality nor the encoder cache (whose
`Hash`/`Eq` go through the pointee), so nouns are modelled as plain trees and
both codec caches as functions, looked up by structural equality exactly as
the derived `Hash`/`PartialEq` instances do.
-/

namespace NounSpec

/-! ### Bit-level groundwork

`bitsToNat` interprets a list of bits least-significant-first.  It is the
value denotation used to state facts about the byte buffers the Rust code
manipulates. -/

/-- Value of a bit list, least significant bit first. -/
def bitsToNat : List Bool → Nat
  | [] => 0
  | b :: rest => (if b then 1 else 0) + 2 * bitsToNat rest

theorem bitsToNat_lt (l : List Bool) : bitsToNat l < 2 ^ l.length := by
  induction l with
  | nil => simp [bitsToNat]
  | cons b rest ih =>
    simp only [bitsToNat, List.length_cons, pow_succ]
    cases b <;> simp <;> omega

theorem testBit_bitsToNat (l : List Bool) (i : Nat) :
    (bitsToNat l).testBit i = l.getD i false := by
  induction l generalizing i with
  | nil => simp [bitsToNat]
  | cons b rest ih =>
    cases i with
    | zero =>
      simp only [bitsToNat, Nat.testBit_zero, List.getD_cons_zero]
      cases b <;> simp <;> omega
    | succ j =>
      rw [Nat.testBit_succ]
      have hdiv : ((if b then 1 else 0) + 2 * bitsToNat rest) / 2 = bitsToNat rest := by
        cases b <;> simp <;> omega
      simp only [bitsToNat, hdiv, List.getD_cons_succ]
      exact ih j

theorem bitsToNat_append (l₁ l₂ : List Bool) :
    bitsToNat (l₁ ++ l₂) = bitsToNat l₁ + 2 ^ l₁.length * bitsToNat l₂ := by
  induction l₁ with
  | nil => simp [bitsToNat]
  | cons b rest ih =>
    have : (b :: rest) ++ l₂ = b :: (rest ++ l₂) := rfl
    rw [this]
    show (if b then 1 else 0) + 2 * bitsToNat (rest ++ l₂) = _
    rw [ih]
    simp only [List.length_cons, pow_succ, bitsToNat]
    ring

/-! ### Byte sequences

`bitLen` is the translation of the free function `bit_len` in `src/atom.rs`:
`u8::BITS * (byte_len - 1) + (u8::BITS - last_byte.leading_zeros())`, with the
`u8` expression `8 - leading_zeros b` rendered as `Nat.size b` (equal for
`b < 256`), and `0` for the empty sequence. -/

/-- Bit length of a little-endian byte sequence (`bit_len` in `src/atom.rs`). -/
def bitLen (bytes : List Nat) : Nat :=
  match bytes.getLast? with
  | none => 0
  | some last => 8 * (bytes.length - 1) + Nat.size last

/-- Little-endian bytes of a natural number, with no trailing zero byte.
This is what `Atom::from(uN)` produces in `src/atom.rs`: `to_le_bytes`
followed by the trailing-zero stripping of `From<Vec<u8>> for Atom`. -/
def natLeBytes (n : Nat) : List Nat :=
  if n = 0 then [] else n % 256 :: natLeBytes (n / 256)
  decreasing_by exact Nat.div_lt_self (Nat.pos_of_ne_zero (by assumption)) (by omega)

/-- Value of a little-endian byte sequence. -/
def bytesToNat : List Nat → Nat
  | [] => 0
  | b :: rest => b + 256 * bytesToNat rest

theorem bytesToNat_natLeBytes (n : Nat) : bytesToNat (natLeBytes n) = n := by
  induction n using Nat.strong_induction_on with
  | _ n ih =>
    rw [natLeBytes]
    by_cases h : n = 0
    · simp [h, bytesToNat]
    · simp only [h, if_false, bytesToNat]
      rw [ih (n / 256) (Nat.div_lt_self (Nat.pos_of_ne_zero h) (by omega))]
      omega

/-- Trailing-zero-byte stripping performed by `From<Vec<u8>> for Atom`. -/
def stripTrailingZeroBytes (bytes : List Nat) : List Nat :=
  (bytes.reverse.dropWhile (· = 0)).reverse

/-! ### Atoms

`struct Atom { bytes: Vec<u8>, bit_len: usize }` from `src/atom.rs`.  Every
constructor in the source computes `bit_len` from `bytes` via `bit_len(..)`,
but the struct stores it separately, so the model does too.  `PartialEq for
Atom` compares only the byte vectors; since `bit_len` is always derived from
`bytes`, Lean equality of the model coincides with the source's `==` on every
constructible atom. -/

structure Atom where
  bytes : List Nat
  bit_len : Nat
deriving DecidableEq, Repr

/-- `Atom::from(u)` for the unsigned-integer types (`to_le_bytes`, then the
trailing-zero stripping of `From<Vec<u8>>`, then `bit_len`). -/
def Atom.fromNat (n : Nat) : Atom :=
  ⟨natLeBytes n, bitLen (natLeBytes n)⟩

/-- `Atom::from(Vec<u8>)`: strip trailing zero bytes, then compute `bit_len`. -/
def Atom.ofBytes (bytes : List Nat) : Atom :=
  ⟨stripTrailingZeroBytes bytes, bitLen (stripTrailingZeroBytes bytes)⟩

/-- `Atom::from(&str)` (and via it `From<String>`): keep the UTF-8 bytes
exactly as they are — no trailing-zero-byte stripping — and compute
`bit_len`, which looks only at the last byte and so undercounts when that
byte is zero. -/
def Atom.fromStrBytes (bytes : List Nat) : Atom :=
  ⟨bytes, bitLen bytes⟩

/-- The bitwise iterator of `src/atom.rs`: bit `i` (for `i < bit_len`) is
`bytes[i / 8] & (1 << (i % 8)) != 0`; iteration stops at `bit_len`. -/
def Atom.iterBits (a : Atom) : List Bool :=
  (List.range a.bit_len).map fun i => (a.bytes.getD (i / 8) 0).testBit (i % 8)

/-- `Atom::as_u64`: `None` when the byte vector is longer than 8 bytes,
otherwise the little-endian value. -/
def Atom.asU64 (a : Atom) : Option Nat :=
  if a.bytes.length ≤ 8 then some (bytesToNat a.bytes) else none

/-- Invariants of every atom the Rust constructors can produce whose byte
vector is canonical (spec §3, invariant I1): bytes are `u8` values, there is
no trailing zero byte, and `bit_len` is the derived bit length.
(`Atom::from(&str)` and `Builder::into_atom` can violate the middle clause;
the codec claims quantify over spec-§3 nouns, which satisfy it.) -/
def Atom.Wf (a : Atom) : Prop :=
  (∀ b ∈ a.bytes, b < 256) ∧ a.bytes.getLast? ≠ some 0 ∧ a.bit_len = bitLen a.bytes

instance (a : Atom) : Decidable a.Wf := by
  unfold Atom.Wf; infer_instance

/-! ### The bitwise atom builder (`Builder` in `src/atom.rs`) -/

structure Builder where
  bytes : List Nat
  bit_idx : Nat
deriving DecidableEq, Repr

def Builder.new : Builder := ⟨[], 0⟩

/-- `Builder::pos`. -/
def Builder.pos (s : Builder) : Nat := s.bit_idx

/-- `Builder::push_bit`: extend the buffer by a zero byte when `bit_idx / 8`
reaches the buffer length, then set or clear bit `bit_idx % 8` of that byte
(`byte |= 1 << shift` / `byte &= !(1 << shift)`, the latter rendered with the
8-bit mask `255 ^^^ (1 <<< shift)`). -/
def Builder.pushBit (s : Builder) (bit : Bool) : Builder :=
  let byteIdx := s.bit_idx / 8
  let bytes := if byteIdx = s.bytes.length then s.bytes ++ [0] else s.bytes
  let byte := bytes.getD byteIdx 0
  let shift := s.bit_idx % 8
  let byte' := if bit then byte ||| (1 <<< shift) else byte &&& (255 ^^^ (1 <<< shift))
  ⟨bytes.set byteIdx byte', s.bit_idx + 1⟩

/-- `Builder::into_atom`: keep the byte buffer as is and recompute the bit
length from it (the source ignores `bit_idx` here). -/
def Builder.intoAtom (s : Builder) : Atom :=
  ⟨s.bytes, bitLen s.bytes⟩

/-- Push a whole list of bits, first element first (a `for` loop of
`push_bit` calls). -/
def Builder.pushAll (s : Builder) (l : List Bool) : Builder :=
  l.foldl Builder.pushBit s

/-- The byte buffer that pushing a bit list into a fresh builder produces:
successive 8-bit chunks, least significant bit first within each byte. -/
def bitsToBytes (l : List Bool) : List Nat :=
  if l = [] then [] else bitsToNat (l.take 8) :: bitsToBytes (l.drop 8)
  termination_by l.length
  decreasing_by
    have : l.length ≠ 0 := by
      simpa [List.length_eq_zero] using (by assumption : ¬ l = [])
    simp only [List.length_drop]
    omega

/-! ### Nouns

`enum Noun { Atom(Atom), Cell(Cell) }` from `src/noun.rs`; a `Cell` is a pair
of `Rc<Noun>`s (`src/cell.rs`).  Sharing is invisible to structural equality
and to both codec caches, so the model is the plain tree. -/

inductive Noun where
  | atom (a : Atom)
  | cell (head tail : Noun)
deriving DecidableEq, Repr

/-- All atoms of a noun are well-formed (spec §3 nouns). -/
def Noun.Wf : Noun → Prop
  | .atom a => a.Wf
  | .cell h t => h.Wf ∧ t.Wf

instance Noun.decWf : (n : Noun) → Decidable n.Wf
  | .atom a => inferInstanceAs (Decidable a.Wf)
  | .cell h t => @instDecidableAnd _ _ (Noun.decWf h) (Noun.decWf t)

/-- Number of constructors; used only to discharge the impossibility of a
noun containing a structurally equal copy of itself. -/
def Noun.size : Noun → Nat
  | .atom _ => 1
  | .cell h t => 1 + h.size + t.size

def Noun.isCell : Noun → Bool
  | .atom _ => false
  | .cell _ _ => true

/-- Axis addressing: `EnumNoun::get` in `src/noun/types.rs` and `Noun::get`
in `src/types/noun.rs` (the two bodies are identical).  On a cell, axes `0`
and `1` return the noun itself, `2` the head, `3` the tail, and any other
axis recurses on the head (even) or tail (odd) with `axis / 2`; on an atom
the function returns `None` for every axis. -/
def Noun.get (n : Noun) (axis : Nat) : Option Noun :=
  match n with
  | .cell h t =>
    match axis with
    | 0 => some n
    | 1 => some n
    | 2 => some h
    | 3 => some t
    | _ => if axis % 2 = 0 then h.get (axis / 2) else t.get (axis / 2)
  | .atom _ => none

/-! ### The jam encoder (`impl Jam for Noun`, `src/noun.rs`)

The source pushes bits into an `AtomBuilder` and finally calls `into_atom`.
The builder-level functions below are the direct translation; each contiguous
run of `push_bit` calls is written as `pushAll` of the corresponding bit
list, and those bit lists are given names (`encodeLenBits`, `encodeAtomBits`,
`backrefBits`) so that theorems can speak about the emitted stream. -/

/-- The low bits of `len` emitted by the `while len != 1` loop of
`encode_len`: bit 0 first, stopping before the most significant 1 bit.
(The source only runs this loop for `len != 0`.) -/
def lenLowBits (len : Nat) : List Bool :=
  if len ≤ 1 then [] else (len &&& 1 != 0) :: lenLowBits (len >>> 1)
  termination_by len
  decreasing_by
    simp only [Nat.shiftRight_succ, Nat.shiftRight_zero]
    omega

/-- The bits `encode_len(len)` pushes: `u64::BITS - len.leading_zeros()`
(that is, `Nat.size len`) zero bits, one 1 bit, then — when the unary count
is non-zero — the low bits of `len` without its most significant 1. -/
def encodeLenBits (len : Nat) : List Bool :=
  List.replicate (Nat.size len) false ++ [true] ++
    (if Nat.size len = 0 then [] else lenLowBits len)

/-- The bits `encode_atom` pushes: tag `0`, the length prefix for
`atom.bit_len()`, then the atom's bits least significant first. -/
def encodeAtomBits (a : Atom) : List Bool :=
  false :: (encodeLenBits a.bit_len ++ a.iterBits)

/-- The bits of `q` least significant first (`Nat.size q` of them); equals
`(Atom.fromNat q).iterBits`. -/
def natBits (q : Nat) : List Bool :=
  (List.range (Nat.size q)).map q.testBit

/-- The bits pushed for a back-reference to bit position `q`: tag `11`, then
the index atom `Atom::from(q)` with its length prefix, bits low first. -/
def backrefBits (q : Nat) : List Bool :=
  true :: true :: (encodeLenBits (Atom.fromNat q).bit_len ++ (Atom.fromNat q).iterBits)

/-- The encoder cache `HashMap<Rc<Noun>, u64>`.  `Hash`/`Eq` of `Rc<Noun>`
delegate to the structural instances of `Noun`, so the map is modelled as a
function looked up and extended by structural equality. -/
def ECache := Noun → Option Nat

def ECache.empty : ECache := fun _ => none

def ECache.insert (c : ECache) (n : Noun) (p : Nat) : ECache :=
  fun m => if m = n then some p else c m

/-- The bit stream `encode` emits for `noun` when the builder is at bit
position `p` with cache `ec`, together with the cache afterwards.  Branches
mirror `encode` in `src/noun.rs`: on a cache hit at `q`, an atom is re-emitted
inline when `atom.bit_len() <= u64::BITS - q.leading_zeros()` and otherwise a
back-reference is emitted (a cell always gets the back-reference); on a miss
the noun is cached at `p` and emitted fresh. -/
def encodeList : Noun → ECache → Nat → List Bool × ECache
  | n, ec, p =>
    match ec n with
    | some q =>
      match n with
      | .atom a =>
        if a.bit_len ≤ Nat.size q then (encodeAtomBits a, ec) else (backrefBits q, ec)
      | .cell _ _ => (backrefBits q, ec)
    | none =>
      let ec1 := ec.insert n p
      match n with
      | .atom a => (encodeAtomBits a, ec1)
      | .cell h t =>
        let r2 := encodeList h ec1 (p + 2)
        let r3 := encodeList t r2.2 (p + 2 + r2.1.length)
        (true :: false :: (r2.1 ++ r3.1), r3.2)

/-- Builder-level `encode` from `src/noun.rs` (the recursion jam actually
runs): pushes the same bits into the builder, reading positions from
`bits.pos()`. -/
def encodeB : Noun → Builder → ECache → Builder × ECache
  | n, b, ec =>
    match ec n with
    | some q =>
      match n with
      | .atom a =>
        if a.bit_len ≤ Nat.size q
        then (b.pushAll (encodeAtomBits a), ec)
        else (b.pushAll (backrefBits q), ec)
      | .cell _ _ => (b.pushAll (backrefBits q), ec)
    | none =>
      let ec1 := ec.insert n b.pos
      match n with
      | .atom a => (b.pushAll (encodeAtomBits a), ec1)
      | .cell h t =>
        let b1 := b.pushAll [true, false]
        let r2 := encodeB h b1 ec1
        encodeB t r2.1 r2.2

/-- `Noun::jam`: run `encode` on a fresh builder and empty cache, then
`into_atom`. -/
def Noun.jam (n : Noun) : Atom :=
  (encodeB n Builder.new ECache.empty).1.intoAtom

/-- The top-level bit stream of `jam` (specification-level view of the same
emission). -/
def Noun.jamBits (n : Noun) : List Bool :=
  (encodeList n ECache.empty 0).1

/-! ### The cue decoder (`impl Cue for Noun`, `src/noun.rs`)

The decoder walks the bitwise iterator of the jammed atom; the model passes
the not-yet-consumed bit list together with the iterator position
(`bits.pos()`). -/

/-- The error type `serdes::Error` as used by `src/noun.rs` (the `serdes`
module of that revision is not part of the sources; the variants are the
ones the decoder constructs).  `panicEmptyStream` models the
`unimplemented!()` the source executes when the stream ends before the first
tag bit, and `fuelExhausted` is an artifact of the embedding's termination
fuel, never reached when the fuel exceeds the stream length. -/
inductive Error where
  | invalidLen
  | atomConstruction
  | invalidBackref
  | cacheMiss
  | invalidTag
  | panicEmptyStream
  | fuelExhausted
deriving DecidableEq, Repr

/-- The unary loop at the top of the length decoder: count `false` bits until
the first `true` (consumed); `None` models running off the end of the
stream. -/
def countZeros : List Bool → Option (Nat × List Bool)
  | [] => none
  | true :: rest => some (0, rest)
  | false :: rest =>
    match countZeros rest with
    | none => none
    | some (k, r) => some (k + 1, r)

/-- The loop `for i in 0..len_bits` of the length decoder in `decode_atom`
(`src/noun.rs`): read a bit and either set (`len |= 1 << i`) or clear
(`len &= !(1 << i)`, a `u64` operation, hence the 64-bit mask) bit `i` of
`len`. -/
def readLenLoop : Nat → Nat → Nat → List Bool → Except Error (Nat × List Bool)
  | 0, _, len, bits => .ok (len, bits)
  | _ + 1, _, _, [] => .error .invalidLen
  | k + 1, i, len, b :: rest =>
    readLenLoop k (i + 1)
      (if b then len ||| (1 <<< i) else len &&& ((2 ^ 64 - 1) ^^^ (1 <<< i))) rest

/-- The length-decoding block at the top of `decode_atom` in `src/noun.rs`:
count the unary prefix; zero means length 0, otherwise start from
`1 << (len_of_len - 1)` and read the remaining low bits. -/
def decodeLen (bits : List Bool) : Except Error (Nat × List Bool) :=
  match countZeros bits with
  | none => .error .invalidLen
  | some (lenOfLen, rest) =>
    if lenOfLen = 0 then .ok (0, rest)
    else readLenLoop (lenOfLen - 1) 0 (1 <<< (lenOfLen - 1)) rest

/-- The `for _ in 0..len` loop of `decode_atom`: push `len` bits into a fresh
builder, failing with `AtomConstruction` if the stream ends. -/
def readBitsB : Nat → List Bool → Builder → Except Error (Builder × List Bool)
  | 0, bits, bld => .ok (bld, bits)
  | _ + 1, [], _ => .error .atomConstruction
  | k + 1, b :: rest, bld => readBitsB k rest (bld.pushBit b)

/-- `decode_atom` from `src/noun.rs`: decode the length; length 0 yields
`Atom::from(0u8)` (the canonical zero atom), otherwise the pushed bits are
turned into an atom with `into_atom`. -/
def decodeAtom (bits : List Bool) : Except Error (Atom × List Bool) :=
  match decodeLen bits with
  | .error e => .error e
  | .ok (len, rest) =>
    if len = 0 then .ok (Atom.fromNat 0, rest)
    else
      match readBitsB len rest Builder.new with
      | .error e => .error e
      | .ok (bld, rest') => .ok (bld.intoAtom, rest')

/-- The decoder cache `HashMap<u64, Rc<Noun>>`, modelled as a function. -/
def DCache := Nat → Option Noun

def DCache.empty : DCache := fun _ => none

def DCache.insert (c : DCache) (p : Nat) (n : Noun) : DCache :=
  fun q => if q = p then some n else c q

/-- `decode` from `src/noun.rs`.  `pos` is `bits.pos()` at entry; the result
carries the noun, the iterator position afterwards, the unconsumed bits and
the updated cache.  The branches: tag `0` decodes an atom and caches it at
`pos`; tag `01` decodes head and tail, caching each at the position its tag
bit occupied; tag `11` decodes an index atom, converts it with `as_u64`
(`InvalidBackref` beyond 8 bytes) and looks it up (`CacheMiss` when absent).
The `fuel` argument only bounds the recursion depth. -/
def decodeF : Nat → List Bool → Nat → DCache → Except Error (Noun × Nat × List Bool × DCache)
  | 0, _, _, _ => .error .fuelExhausted
  | _ + 1, [], _, _ => .error .panicEmptyStream
  | fuel + 1, b :: rest, pos, dc =>
    if b then
      match rest with
      | [] => .error .invalidTag
      | b2 :: rest2 =>
        if b2 then
          match decodeAtom rest2 with
          | .error e => .error e
          | .ok (ia, rest') =>
            match ia.asU64 with
            | none => .error .invalidBackref
            | some idx =>
              match dc idx with
              | none => .error .cacheMiss
              | some m => .ok (m, pos + 2 + (rest2.length - rest'.length), rest', dc)
        else
          let posH := pos + 2
          match decodeF fuel rest2 posH dc with
          | .error e => .error e
          | .ok (h, posT, remT, dc1) =>
            let dc2 := dc1.insert posH h
            match decodeF fuel remT posT dc2 with
            | .error e => .error e
            | .ok (t, pos', rem', dc3) =>
              .ok (.cell h t, pos', rem', dc3.insert posT t)
    else
      match decodeAtom rest with
      | .error e => .error e
      | .ok (a, rest') =>
        .ok (.atom a, pos + 1 + (rest.length - rest'.length), rest',
          dc.insert pos (.atom a))

instance exceptDecEq {ε α : Type} [DecidableEq ε] [DecidableEq α] :
    DecidableEq (Except ε α) := fun x y =>
  match x, y with
  | .ok a, .ok b => decidable_of_iff (a = b) (by simp)
  | .error e, .error f => decidable_of_iff (e = f) (by simp)
  | .ok _, .error _ => isFalse (by simp)
  | .error _, .ok _ => isFalse (by simp)

/-- `Noun::cue`: iterate over the jammed atom's bits, decode one noun with an
empty cache, drop the cache and return the noun.  The fuel `bit_len + 1`
always dominates the recursion depth, which grows only while bits remain. -/
def Noun.cue (jammedNoun : Atom) : Except Error Noun :=
  match decodeF (jammedNoun.bit_len + 1) jammedNoun.iterBits 0 DCache.empty with
  | .error e => .error e
  | .ok (n, _, _, _) => .ok n

/-! ### `decode_len` from `src/serdes.rs`

The trait-level decoder cited by the length-overflow claim.  Its unary
counter is `read_unary1` (zeros until the first 1); when the count reaches
`u64::BITS` the source executes `todo!("too large")` — a panic, not an error
return — and its reads use `.expect(..)`, also a panic on a short stream.
The outcome type keeps those panics distinct from values. -/

inductive LenOutcome where
  | ok (len : Nat) (bitsRead : Nat) (rest : List Bool)
  | panicTooLarge
  | panicRead
deriving DecidableEq, Repr

/-- `src.read(k)` with a `LittleEndian` reader: `k` bits, first bit least
significant; `none` when the stream is shorter than `k`. -/
def readNum (k : Nat) (bits : List Bool) : Option (Nat × List Bool) :=
  if k ≤ bits.length then some (bitsToNat (bits.take k), bits.drop k) else none

/-- `decode_len` from `src/serdes.rs` (lines 88–106). -/
def serdesDecodeLen (bits : List Bool) : LenOutcome :=
  match countZeros bits with
  | none => .panicRead
  | some (lenOfLen, rest) =>
    if 64 ≤ lenOfLen then .panicTooLarge
    else if lenOfLen = 0 then .ok 0 1 rest
    else
      match readNum (lenOfLen - 1) rest with
      | none => .panicRead
      | some (v, rest') =>
        .ok ((1 <<< (lenOfLen - 1)) ||| v) (lenOfLen + 1 + (lenOfLen - 1)) rest'

/-! ## Bit-twiddling helpers -/

theorem lor_two_pow_of_lt {x i : Nat} (hx : x < 2 ^ i) : x ||| (1 <<< i) = x + 2 ^ i := by
  apply Nat.eq_of_testBit_eq
  intro j
  rw [Nat.testBit_or, Nat.one_shiftLeft, Nat.testBit_two_pow]
  rcases Nat.lt_trichotomy j i with hj | rfl | hj
  · rw [Nat.add_comm, Nat.testBit_two_pow_add_gt hj]
    simp [Nat.ne_of_gt hj]
  · rw [Nat.add_comm, Nat.testBit_two_pow_add_eq, Nat.testBit_lt_two_pow hx]
    simp
  · have h1 : x.testBit j = false :=
      Nat.testBit_lt_two_pow (lt_of_lt_of_le hx (Nat.pow_le_pow_right (by omega) (by omega)))
    have h2 : (x + 2 ^ i).testBit j = false := by
      apply Nat.testBit_lt_two_pow
      have : 2 ^ (i + 1) ≤ 2 ^ j := Nat.pow_le_pow_right (by omega) (by omega)
      have := Nat.pow_succ 2 i
      omega
    simp [h1, h2, Nat.ne_of_lt hj]

theorem land_mask_of_lt {x i w : Nat} (hx : x < 2 ^ i) (hiw : i < w) :
    x &&& ((2 ^ w - 1) ^^^ (1 <<< i)) = x := by
  apply Nat.eq_of_testBit_eq
  intro j
  rw [Nat.testBit_and, Nat.testBit_xor, Nat.one_shiftLeft, Nat.testBit_two_pow,
    Nat.testBit_two_pow_sub_one]
  by_cases hj : x.testBit j = true
  · have hji : j < i := by
      by_contra hge
      have : x < 2 ^ j := lt_of_lt_of_le hx (Nat.pow_le_pow_right (by omega) (by omega))
      rw [Nat.testBit_lt_two_pow this] at hj
      exact Bool.noConfusion hj
    have : j < w := by omega
    simp [hj, this, Nat.ne_of_gt hji]
  · simp [Bool.eq_false_iff.mpr hj]

/-! ## Builder correctness

`Builder.pushAll` on a fresh builder accumulates exactly the byte buffer
`bitsToBytes` describes, with `bit_idx` equal to the number of pushed bits. -/

theorem bitsToBytes_nil : bitsToBytes [] = [] := by rw [bitsToBytes]; rfl

theorem bitsToBytes_cons_of_ne_nil (l : List Bool) (h : l ≠ []) :
    bitsToBytes l = bitsToNat (l.take 8) :: bitsToBytes (l.drop 8) := by
  rw [bitsToBytes, if_neg h]

theorem bitsToBytes_length (l : List Bool) :
    (bitsToBytes l).length = (l.length + 7) / 8 := by
  induction l using bitsToBytes.induct with
  | case1 => rw [bitsToBytes_nil]; rfl
  | case2 l hne ih =>
    rw [bitsToBytes_cons_of_ne_nil l hne]
    have hpos : 0 < l.length := List.length_pos.mpr hne
    simp only [List.length_cons, ih, List.length_drop]
    omega

theorem bitsToBytes_small (l : List Bool) (h : l ≠ []) (hlen : l.length ≤ 8) :
    bitsToBytes l = [bitsToNat l] := by
  rw [bitsToBytes_cons_of_ne_nil l h, List.take_of_length_le hlen,
    List.drop_of_length_le hlen, bitsToBytes_nil]

theorem pushBit_cons (y : Nat) (ys : List Nat) (m : Nat) (b : Bool) :
    Builder.pushBit ⟨y :: ys, m + 8⟩ b =
      ⟨y :: (Builder.pushBit ⟨ys, m⟩ b).bytes, m + 8 + 1⟩ := by
  simp only [Builder.pushBit]
  have hdiv : (m + 8) / 8 = m / 8 + 1 := Nat.add_div_right m (by norm_num)
  have hmod : (m + 8) % 8 = m % 8 := Nat.add_mod_right m 8
  rw [hdiv, hmod]
  have hcond : (m / 8 + 1 = (y :: ys).length) ↔ (m / 8 = ys.length) := by
    simp [List.length_cons]
  by_cases hc : m / 8 = ys.length
  · rw [if_pos (by simp [List.length_cons, hc]), if_pos hc]
    have : (y :: ys) ++ [0] = y :: (ys ++ [0]) := rfl
    rw [this]
    simp [List.getD_cons_succ, List.set_cons_succ]
  · rw [if_neg (by simp [List.length_cons, hc]), if_neg hc]
    simp [List.getD_cons_succ, List.set_cons_succ]

theorem pushBit_bitsToBytes (l : List Bool) (b : Bool) :
    Builder.pushBit ⟨bitsToBytes l, l.length⟩ b =
      ⟨bitsToBytes (l ++ [b]), l.length + 1⟩ := by
  induction l using bitsToBytes.induct with
  | case1 =>
    rw [bitsToBytes_nil]
    have h1 : bitsToBytes [b] = [bitsToNat [b]] := bitsToBytes_small [b] (by simp) (by simp)
    cases b <;> simp [Builder.pushBit, h1, bitsToNat] <;> rfl
  | case2 l hne ih =>
    by_cases hlen : l.length < 8
    · have hl8 : l.length ≤ 8 := by omega
      rw [bitsToBytes_small l hne hl8]
      have hlb : (l ++ [b]).length ≤ 8 := by simp [List.length_append]; omega
      rw [bitsToBytes_small (l ++ [b]) (by simp) hlb]
      have hpos : 0 < l.length := List.length_pos.mpr hne
      simp only [Builder.pushBit]
      have hdiv : l.length / 8 = 0 := Nat.div_eq_of_lt hlen
      have hmod : l.length % 8 = l.length := Nat.mod_eq_of_lt hlen
      rw [hdiv, hmod]
      rw [if_neg (by simp)]
      simp only [List.getD_cons_zero, List.set_cons_zero, List.length_append,
        List.length_singleton]
      have hval : bitsToNat (l ++ [b]) =
          bitsToNat l + 2 ^ l.length * (if b then 1 else 0) := by
        rw [bitsToNat_append]
        simp [bitsToNat]
      have hlt : bitsToNat l < 2 ^ l.length := bitsToNat_lt l
      cases b
      · simp only [Bool.false_eq_true, if_false]
        rw [(by norm_num : (255 : Nat) = 2 ^ 8 - 1), land_mask_of_lt hlt hlen]
        simp [hval]
      · simp only [if_pos rfl]
        rw [lor_two_pow_of_lt hlt]
        simp [hval]
    · -- at least one full byte before the pushed bit
      have h8 : 8 ≤ l.length := by omega
      rw [bitsToBytes_cons_of_ne_nil l hne]
      have hsplit : l.length = (l.length - 8) + 8 := by omega
      have hdroplen : (l.drop 8).length = l.length - 8 := by simp [List.length_drop]
      rw [hsplit, pushBit_cons]
      rw [← hdroplen, ih, bitsToBytes_cons_of_ne_nil (l ++ [b]) (by simp)]
      have htake : (l ++ [b]).take 8 = l.take 8 := List.take_append_of_le_length h8
      have hdrop : (l ++ [b]).drop 8 = l.drop 8 ++ [b] := List.drop_append_of_le_length h8
      rw [htake, hdrop, hdroplen]

theorem pushAll_snoc (s : Builder) (l : List Bool) (b : Bool) :
    s.pushAll (l ++ [b]) = (s.pushAll l).pushBit b := by
  simp [Builder.pushAll]

theorem pushAll_new (l : List Bool) :
    Builder.new.pushAll l = ⟨bitsToBytes l, l.length⟩ := by
  induction l using List.reverseRecOn with
  | nil => rw [bitsToBytes_nil]; rfl
  | append_singleton l b ih =>
    rw [pushAll_snoc, ih, pushBit_bitsToBytes]
    simp

/-! ## Bit lengths of built byte buffers -/

theorem bitLen_nil : bitLen [] = 0 := rfl

theorem bitLen_cons_of_ne_nil (y : Nat) (ys : List Nat) (h : ys ≠ []) :
    bitLen (y :: ys) = 8 + bitLen ys := by
  match hlast : ys.getLast? with
  | none => exact absurd (List.getLast?_eq_none_iff.mp hlast) h
  | some last =>
    have hcons : (y :: ys).getLast? = some last := by
      have hsplit : y :: ys = [y] ++ ys := rfl
      rw [hsplit, List.getLast?_append, hlast]
      rfl
    unfold bitLen
    rw [hlast, hcons]
    simp only [List.length_cons]
    have : 0 < ys.length := List.length_pos.mpr h
    omega

theorem size_bitsToNat_of_last_true (l : List Bool) (h : l.getLast? = some true) :
    Nat.size (bitsToNat l) = l.length := by
  have hne : l ≠ [] := by
    intro hnil; rw [hnil] at h; exact Option.noConfusion h
  obtain ⟨l', rfl⟩ : ∃ l', l = l' ++ [true] := by
    rcases List.eq_nil_or_concat l with rfl | ⟨L, a, rfl⟩
    · exact absurd rfl hne
    · have ha : a = true := by
        rw [List.concat_eq_append, List.getLast?_concat] at h
        exact Option.some.inj h
      exact ⟨L, by rw [List.concat_eq_append, ha]⟩
  have hlow : bitsToNat (l' ++ [true]) = bitsToNat l' + 2 ^ l'.length := by
    rw [bitsToNat_append]; simp [bitsToNat]
  have hlt : bitsToNat l' < 2 ^ l'.length := bitsToNat_lt l'
  have hlen : (l' ++ [true]).length = l'.length + 1 := by simp
  rw [hlow, hlen]
  apply Nat.le_antisymm
  · exact Nat.size_le.mpr (by rw [pow_succ]; omega)
  · exact Nat.lt_size.mpr (by omega)

theorem getLast?_drop_of_lt (l : List Bool) (n : Nat) (h : n < l.length) :
    (l.drop n).getLast? = l.getLast? := by
  conv_rhs => rw [← List.take_append_drop n l]
  rw [List.getLast?_append]
  have : l.drop n ≠ [] := by
    intro hnil
    have := List.length_drop n l
    rw [hnil] at this
    simp at this
    omega
  match hd : (l.drop n).getLast? with
  | none => exact absurd (List.getLast?_eq_none_iff.mp hd) this
  | some x => rfl

theorem bitLen_bitsToBytes_last_true (l : List Bool) (h : l.getLast? = some true) :
    bitLen (bitsToBytes l) = l.length := by
  induction l using bitsToBytes.induct with
  | case1 => simp at h
  | case2 l hne ih =>
    by_cases hlen : l.length ≤ 8
    · rw [bitsToBytes_small l hne hlen]
      unfold bitLen
      simp only [List.getLast?_singleton, List.length_singleton]
      rw [size_bitsToNat_of_last_true l h]
      omega
    · have h8 : 8 < l.length := by omega
      rw [bitsToBytes_cons_of_ne_nil l hne]
      have hdropne : l.drop 8 ≠ [] := by
        intro hnil
        have := List.length_drop 8 l
        rw [hnil] at this
        simp at this
        omega
      have hdroplast : (l.drop 8).getLast? = some true := by
        rw [getLast?_drop_of_lt l 8 h8]; exact h
      have hbytesne : bitsToBytes (l.drop 8) ≠ [] := by
        rw [bitsToBytes_cons_of_ne_nil _ hdropne]
        simp
      rw [bitLen_cons_of_ne_nil _ _ hbytesne, ih hdroplast]
      simp only [List.length_drop]
      omega

/-! ## The atom builder (claim C9) -/

/-- C9 counterexample: pushing the single bit `0` yields, via `into_atom`, an
atom whose `bit_len()` is `0`, not the pushed count `1` — `into_atom`
recomputes the bit length from the byte buffer (`bit_len(&bytes)`), it does
not use the tracked `bit_idx`. -/
theorem builder_into_atom_counterexample :
    (Builder.new.pushAll [false]).intoAtom.bit_len ≠ [false].length := by
  rw [pushAll_new]
  show bitLen (bitsToBytes [false]) ≠ 1
  rw [bitsToBytes_small [false] (by simp) (by simp)]
  have hz : bitsToNat [false] = 0 := by simp [bitsToNat]
  rw [hz]
  show bitLen [0] ≠ 1
  unfold bitLen
  simp [Nat.size_zero]

/-- C9 amended: `into_atom` keeps the accumulated byte buffer unchanged (no
trailing-zero-byte stripping, so the buffer has `⌈pushed/8⌉` bytes even when
the high bytes are zero), but recomputes `bit_len` as the canonical bit
length of that buffer; `bit_len` therefore equals the pushed count exactly
when the last pushed bit is `1` (or nothing was pushed), and is smaller when
the sequence ends in `0` bits. -/
theorem builder_into_atom_amended (l : List Bool) :
    (Builder.new.pushAll l).intoAtom.bytes = bitsToBytes l ∧
      (Builder.new.pushAll l).intoAtom.bytes.length = (l.length + 7) / 8 ∧
      (l.getLast? = some true →
        (Builder.new.pushAll l).intoAtom.bit_len = l.length) := by
  rw [pushAll_new]
  exact ⟨rfl, bitsToBytes_length l, fun h => bitLen_bitsToBytes_last_true l h⟩

theorem builder_into_atom_amended_witness :
    (Builder.new.pushAll [false, true]).intoAtom.bytes = bitsToBytes [false, true] ∧
      (Builder.new.pushAll [false, true]).intoAtom.bit_len = [false, true].length :=
  ⟨(builder_into_atom_amended [false, true]).1,
    (builder_into_atom_amended [false, true]).2.2 (by decide)⟩

/-! ## `Nat.size` facts -/

theorem size_eq_succ_of (n k : Nat) (h1 : 2 ^ k ≤ n) (h2 : n < 2 ^ (k + 1)) :
    Nat.size n = k + 1 :=
  Nat.le_antisymm (Nat.size_le.mpr h2) (Nat.lt_size.mpr h1)

theorem testBit_size_sub_one (n : Nat) (h : n ≠ 0) :
    n.testBit (Nat.size n - 1) = true := by
  obtain ⟨k, hk⟩ : ∃ k, Nat.size n = k + 1 := by
    have : 0 < Nat.size n := Nat.size_pos.mpr (Nat.pos_of_ne_zero h)
    exact ⟨Nat.size n - 1, by omega⟩
  have h1 : 2 ^ k ≤ n := Nat.lt_size.mp (by omega)
  have h2 : n < 2 ^ (k + 1) := Nat.size_le.mp (by omega)
  rw [hk]
  simp only [Nat.add_sub_cancel]
  rw [Nat.testBit_to_div_mod]
  have hdiv : n / 2 ^ k = 1 := by
    apply Nat.div_eq_of_lt_le
    · omega
    · rw [pow_succ] at h2
      omega
  rw [hdiv]
  decide

theorem testBit_eq_false_of_size_le {n j : Nat} (h : Nat.size n ≤ j) :
    n.testBit j = false :=
  Nat.testBit_lt_two_pow
    (lt_of_lt_of_le (Nat.lt_size_self n) (Nat.pow_le_pow_right (by omega) h))

theorem size_div_256 (n : Nat) (h : 256 ≤ n) :
    Nat.size (n / 256) = Nat.size n - 8 := by
  obtain ⟨k, hk⟩ : ∃ k, Nat.size (n / 256) = k + 1 := by
    have : 0 < Nat.size (n / 256) := Nat.size_pos.mpr (by omega)
    exact ⟨Nat.size (n / 256) - 1, by omega⟩
  have h1 : 2 ^ k ≤ n / 256 := Nat.lt_size.mp (by omega)
  have h2 : n / 256 < 2 ^ (k + 1) := Nat.size_le.mp (by omega)
  have h1' : 2 ^ (k + 8) ≤ n := by
    have : 2 ^ k * 256 ≤ n := by
      have := (Nat.le_div_iff_mul_le (by norm_num : 0 < 256)).mp h1
      omega
    calc 2 ^ (k + 8) = 2 ^ k * 256 := by rw [pow_add]; norm_num
    _ ≤ n := this
  have h2' : n < 2 ^ (k + 8 + 1) := by
    have : n < (2 ^ (k + 1)) * 256 := by
      have := (Nat.div_lt_iff_lt_mul (by norm_num : 0 < 256)).mp h2
      omega
    calc n < 2 ^ (k + 1) * 256 := this
    _ = 2 ^ (k + 8 + 1) := by rw [pow_add, pow_add]; ring_nf
  rw [hk, size_eq_succ_of n (k + 8) h1' h2']
  omega

/-! ## The length codec (claim C4) -/

theorem countZeros_replicate (m : Nat) (r : List Bool) :
    countZeros (List.replicate m false ++ true :: r) = some (m, r) := by
  induction m with
  | zero => rfl
  | succ j ih =>
    have hsplit : List.replicate (j + 1) false ++ true :: r =
        false :: (List.replicate j false ++ true :: r) := by
      simp [List.replicate_succ]
    rw [hsplit]
    show (match countZeros (List.replicate j false ++ true :: r) with
          | none => none
          | some (k, r) => some (k + 1, r)) = some (j + 1, r)
    rw [ih]

theorem lenLowBits_eq_map (L : Nat) :
    lenLowBits L = (List.range (Nat.size L - 1)).map L.testBit := by
  induction L using lenLowBits.induct with
  | case1 L hle =>
    rw [lenLowBits, if_pos hle]
    match L, hle with
    | 0, _ => rw [Nat.size_zero]; rfl
    | 1, _ => rw [Nat.size_one]; rfl
  | case2 L hgt ih =>
    have h2 : 2 ≤ L := by omega
    rw [lenLowBits, if_neg hgt]
    have hsize : Nat.size (L >>> 1) = Nat.size L - 1 := by
      rw [Nat.shiftRight_succ, Nat.shiftRight_zero]
      obtain ⟨k, hk⟩ : ∃ k, Nat.size (L / 2) = k + 1 := by
        have : 0 < Nat.size (L / 2) := Nat.size_pos.mpr (by omega)
        exact ⟨Nat.size (L / 2) - 1, by omega⟩
      have h1 : 2 ^ k ≤ L / 2 := Nat.lt_size.mp (by omega)
      have h2' : L / 2 < 2 ^ (k + 1) := Nat.size_le.mp (by omega)
      have h1' : 2 ^ (k + 1) ≤ L := by
        rw [pow_succ]
        have := (Nat.le_div_iff_mul_le (by norm_num : 0 < 2)).mp h1
        omega
      have h2'' : L < 2 ^ (k + 2) := by
        have := (Nat.div_lt_iff_lt_mul (by norm_num : 0 < 2)).mp h2'
        rw [pow_succ, pow_succ]
        rw [pow_succ] at this
        omega
      rw [hk, size_eq_succ_of L (k + 1) h1' h2'']
      omega
    have hlen : 1 ≤ Nat.size L - 1 := by
      have : 2 ^ 1 ≤ L := by omega
      have := Nat.lt_size.mpr this
      omega
    obtain ⟨c, hc⟩ : ∃ c, Nat.size L - 1 = c + 1 := ⟨Nat.size L - 2, by omega⟩
    rw [hc, List.range_succ_eq_map, List.map_cons, List.map_map]
    congr 1
    · rw [Nat.testBit_zero]
      have hand : L &&& 1 = L % 2 := Nat.and_one_is_mod L
      have : L % 2 = 0 ∨ L % 2 = 1 := by omega
      rcases this with hm | hm <;> simp [hand, hm]
    · rw [ih, hsize, hc]
      simp only [Nat.add_sub_cancel]
      apply List.map_congr_left
      intro j _
      show (L >>> 1).testBit j = L.testBit (j + 1)
      rw [Nat.shiftRight_succ, Nat.shiftRight_zero, Nat.testBit_div_two]

theorem lenLowBits_length (L : Nat) :
    (lenLowBits L).length = Nat.size L - 1 := by
  rw [lenLowBits_eq_map]
  simp

/-- One pass of the `for i in 0..len_bits` loop over bits that are
`L.testBit (i + j)`. -/
theorem readLenLoop_spec (L : Nat) (c : Nat) :
    ∀ (i len : Nat) (rest : List Bool), len < 2 ^ 64 → i + c ≤ 64 →
      ∃ len', readLenLoop c i len ((List.range c).map (fun j => L.testBit (i + j)) ++ rest) =
          .ok (len', rest) ∧
        len' < 2 ^ 64 ∧
        (∀ j, len'.testBit j =
          if i ≤ j ∧ j < i + c then L.testBit j else len.testBit j) := by
  induction c with
  | zero =>
    intro i len rest hlen _
    refine ⟨len, rfl, hlen, ?_⟩
    intro j
    rw [if_neg (by omega)]
  | succ c ih =>
    intro i len rest hlen hle
    have hstream : (List.range (c + 1)).map (fun j => L.testBit (i + j)) ++ rest =
        L.testBit i :: ((List.range c).map (fun j => L.testBit (i + 1 + j)) ++ rest) := by
      rw [List.range_succ_eq_map, List.map_cons, List.map_map]
      simp only [Nat.add_zero, List.cons_append]
      congr 2
      apply List.map_congr_left
      intro j _
      show L.testBit (i + (j + 1)) = L.testBit (i + 1 + j)
      congr 1
      omega
    rw [hstream]
    simp only [readLenLoop]
    set len₁ := if L.testBit i then len ||| (1 <<< i) else len &&& ((2 ^ 64 - 1) ^^^ (1 <<< i))
      with hlen₁
    have hbit₁ : ∀ j, len₁.testBit j = if j = i then L.testBit i else len.testBit j := by
      intro j
      rw [hlen₁]
      by_cases hb : L.testBit i
      · rw [if_pos hb, Nat.testBit_or, Nat.one_shiftLeft, Nat.testBit_two_pow]
        by_cases hj : j = i
        · rw [if_pos hj, hj]
          simp [hb]
        · have hne : i ≠ j := fun h => hj h.symm
          rw [if_neg hj]
          simp [hne]
      · have hbf : L.testBit i = false := Bool.eq_false_iff.mpr hb
        rw [if_neg hb, Nat.testBit_and, Nat.testBit_xor, Nat.one_shiftLeft,
          Nat.testBit_two_pow, Nat.testBit_two_pow_sub_one]
        by_cases hj : j = i
        · have hi64 : i < 64 := by omega
          rw [if_pos hj, hj, hbf]
          simp [hi64]
        · have hne : i ≠ j := fun h => hj h.symm
          rw [if_neg hj]
          by_cases hj64 : j < 64
          · simp [hj64, hne]
          · have hfalse : len.testBit j = false :=
              Nat.testBit_lt_two_pow
                (lt_of_lt_of_le hlen (Nat.pow_le_pow_right (by omega) (by omega)))
            simp [hfalse, hj64]
    have hlt₁ : len₁ < 2 ^ 64 := by
      apply Nat.lt_pow_two_of_testBit
      intro j hj
      rw [hbit₁, if_neg (by omega)]
      exact Nat.testBit_lt_two_pow
        (lt_of_lt_of_le hlen (Nat.pow_le_pow_right (by omega) hj))
    obtain ⟨len', hrun, hlt', hbit'⟩ := ih (i + 1) len₁ rest hlt₁ (by omega)
    refine ⟨len', hrun, hlt', ?_⟩
    intro j
    rw [hbit' j]
    by_cases hin : i + 1 ≤ j ∧ j < i + 1 + c
    · rw [if_pos hin, if_pos (show i ≤ j ∧ j < i + (c + 1) by omega)]
    · rw [if_neg hin, hbit₁ j]
      by_cases hj : j = i
      · rw [if_pos hj, hj, if_pos (show i ≤ i ∧ i < i + (c + 1) by omega)]
      · rw [if_neg hj, if_neg (show ¬(i ≤ j ∧ j < i + (c + 1)) by omega)]

/-- C4 core: the length decoder of `decode_atom` in `src/noun.rs` inverts
`encode_len` for every length in the 64-bit register, leaving the rest of the
stream untouched. -/
theorem decodeLen_encodeLenBits (L : Nat) (hL : L < 2 ^ 64) (rest : List Bool) :
    decodeLen (encodeLenBits L ++ rest) = .ok (L, rest) := by
  by_cases h0 : L = 0
  · subst h0
    have : encodeLenBits 0 ++ rest = List.replicate 0 false ++ true :: rest := by
      simp [encodeLenBits, Nat.size_zero]
    rw [this, decodeLen, countZeros_replicate]
    rfl
  · have hpos : 0 < Nat.size L := Nat.size_pos.mpr (Nat.pos_of_ne_zero h0)
    have hsz : Nat.size L ≤ 64 := Nat.size_le.mpr hL
    have hstream : encodeLenBits L ++ rest =
        List.replicate (Nat.size L) false ++ true :: (lenLowBits L ++ rest) := by
      rw [encodeLenBits, if_neg (by omega)]
      simp
    rw [hstream]
    simp only [decodeLen, countZeros_replicate]
    rw [if_neg (by omega : ¬ Nat.size L = 0)]
    obtain ⟨len', hrun, _, hbit⟩ :=
      readLenLoop_spec L (Nat.size L - 1) 0 (1 <<< (Nat.size L - 1)) rest
        (by rw [Nat.one_shiftLeft]; exact Nat.pow_lt_pow_right (by omega) (by omega))
        (by omega)
    have hbits : lenLowBits L = (List.range (Nat.size L - 1)).map (fun j => L.testBit (0 + j)) := by
      rw [lenLowBits_eq_map]
      apply List.map_congr_left
      intro j _
      simp
    rw [hbits, hrun]
    congr 1
    refine Prod.ext ?_ rfl
    show len' = L
    apply Nat.eq_of_testBit_eq
    intro j
    rw [hbit j, Nat.one_shiftLeft, Nat.testBit_two_pow]
    by_cases hin : 0 ≤ j ∧ j < 0 + (Nat.size L - 1)
    · rw [if_pos hin]
    · rw [if_neg hin]
      by_cases hj : j = Nat.size L - 1
      · rw [hj, testBit_size_sub_one L h0]
        simp
      · have : Nat.size L ≤ j := by omega
        rw [testBit_eq_false_of_size_le this]
        simp [Ne.symm hj]

/-- C4: length codec round-trip.  For every length `L` in the 64-bit
register, decoding the unary-prefixed encoding of `L` (`encode_len` in
`src/noun.rs`) with the length decoder of `decode_atom` yields `L` and
consumes exactly the encoding; moreover `L = 0` encodes as the single bit
`1` (and hence decodes to `0` by the first part). -/
theorem decode_encode_len (L : Nat) (hL : L < 2 ^ 64) (rest : List Bool) :
    decodeLen (encodeLenBits L ++ rest) = .ok (L, rest) ∧ encodeLenBits 0 = [true] :=
  ⟨decodeLen_encodeLenBits L hL rest, by simp [encodeLenBits, Nat.size_zero]⟩

theorem decode_encode_len_witness :
    (19 : Nat) < 2 ^ 64 ∧
      decodeLen (encodeLenBits 19 ++ [true, false]) = .ok (19, [true, false]) :=
  ⟨by norm_num, (decode_encode_len 19 (by norm_num) [true, false]).1⟩

/-! ## Canonical atoms -/

theorem natLeBytes_nil : natLeBytes 0 = [] := by rw [natLeBytes]; rfl

theorem natLeBytes_cons (n : Nat) (h : n ≠ 0) :
    natLeBytes n = n % 256 :: natLeBytes (n / 256) := by
  rw [natLeBytes, if_neg h]

theorem natLeBytes_bytes_lt (n : Nat) : ∀ b ∈ natLeBytes n, b < 256 := by
  induction n using Nat.strong_induction_on with
  | _ n ih =>
    by_cases h : n = 0
    · rw [h, natLeBytes_nil]
      simp
    · rw [natLeBytes_cons n h]
      intro b hb
      rcases List.mem_cons.mp hb with rfl | hmem
      · omega
      · exact ih (n / 256) (Nat.div_lt_self (Nat.pos_of_ne_zero h) (by omega)) b hmem

theorem natLeBytes_getLast_ne_zero (n : Nat) : (natLeBytes n).getLast? ≠ some 0 := by
  induction n using Nat.strong_induction_on with
  | _ n ih =>
    by_cases h : n = 0
    · rw [h, natLeBytes_nil]
      simp
    · rw [natLeBytes_cons n h]
      by_cases hq : n / 256 = 0
      · rw [hq, natLeBytes_nil]
        have : n % 256 ≠ 0 := by
          have := Nat.div_add_mod n 256
          intro hz
          apply h
          omega
        simp [this]
      · have hne : natLeBytes (n / 256) ≠ [] := by
          rw [natLeBytes_cons _ hq]
          simp
        have hcons : (n % 256 :: natLeBytes (n / 256)).getLast? =
            (natLeBytes (n / 256)).getLast? := by
          have hsplit : n % 256 :: natLeBytes (n / 256) = [n % 256] ++ natLeBytes (n / 256) :=
            rfl
          rw [hsplit, List.getLast?_append]
          match hl : (natLeBytes (n / 256)).getLast? with
          | none => exact absurd (List.getLast?_eq_none_iff.mp hl) hne
          | some x => rfl
        rw [hcons]
        exact ih (n / 256) (Nat.div_lt_self (Nat.pos_of_ne_zero h) (by omega))

theorem bitLen_natLeBytes (n : Nat) : bitLen (natLeBytes n) = Nat.size n := by
  induction n using Nat.strong_induction_on with
  | _ n ih =>
    by_cases h : n = 0
    · rw [h, natLeBytes_nil, bitLen_nil, Nat.size_zero]
    · rw [natLeBytes_cons n h]
      by_cases hq : n / 256 = 0
      · rw [hq, natLeBytes_nil]
        have hlt : n < 256 := by
          by_contra hge
          have h2 : (1 : Nat) ≤ n / 256 :=
            (Nat.one_le_div_iff (by norm_num)).mpr (by omega)
          omega
        have hmod : n % 256 = n := Nat.mod_eq_of_lt hlt
        unfold bitLen
        simp [hmod]
      · have h256 : 256 ≤ n := by
          by_contra hlt
          exact hq (Nat.div_eq_of_lt (by omega))
        have hne : natLeBytes (n / 256) ≠ [] := by
          rw [natLeBytes_cons _ hq]
          simp
        rw [bitLen_cons_of_ne_nil _ _ hne,
          ih (n / 256) (Nat.div_lt_self (Nat.pos_of_ne_zero h) (by omega)),
          size_div_256 n h256]
        have : 8 < Nat.size n := Nat.lt_size.mpr (by norm_num; omega)
        omega

theorem fromNat_wf (n : Nat) : (Atom.fromNat n).Wf :=
  ⟨natLeBytes_bytes_lt n, natLeBytes_getLast_ne_zero n, rfl⟩

theorem fromNat_bit_len (n : Nat) : (Atom.fromNat n).bit_len = Nat.size n :=
  bitLen_natLeBytes n

theorem natLeBytes_length_le (k : Nat) :
    ∀ n, n < 2 ^ (8 * k) → (natLeBytes n).length ≤ k := by
  induction k with
  | zero =>
    intro n hn
    have : n = 0 := by simpa using hn
    rw [this, natLeBytes_nil]
    simp
  | succ k ih =>
    intro n hn
    by_cases h : n = 0
    · rw [h, natLeBytes_nil]; simp
    · rw [natLeBytes_cons n h]
      simp only [List.length_cons]
      have : n / 256 < 2 ^ (8 * k) := by
        apply Nat.div_lt_of_lt_mul
        calc n < 2 ^ (8 * (k + 1)) := hn
        _ = 256 * 2 ^ (8 * k) := by
          rw [show 8 * (k + 1) = 8 + 8 * k by ring, pow_add]
          norm_num
      have := ih (n / 256) this
      omega

theorem asU64_fromNat (q : Nat) (h : q < 2 ^ 64) : (Atom.fromNat q).asU64 = some q := by
  show (if (natLeBytes q).length ≤ 8 then some (bytesToNat (natLeBytes q)) else none) = some q
  rw [if_pos (natLeBytes_length_le 8 q (by norm_num at h ⊢; omega)), bytesToNat_natLeBytes]

theorem testBit_natLeBytes (k : Nat) :
    ∀ (n j : Nat), j < 8 →
      ((natLeBytes n).getD k 0).testBit j = n.testBit (8 * k + j) := by
  induction k with
  | zero =>
    intro n j hj
    by_cases h : n = 0
    · rw [h, natLeBytes_nil]
      simp
    · rw [natLeBytes_cons n h]
      show ((n % 256).testBit j) = n.testBit (8 * 0 + j)
      have h256 : (256 : Nat) = 2 ^ 8 := by norm_num
      rw [h256, Nat.testBit_mod_two_pow]
      simp [hj]
  | succ k ih =>
    intro n j hj
    by_cases h : n = 0
    · rw [h, natLeBytes_nil]
      simp
    · rw [natLeBytes_cons n h]
      show ((natLeBytes (n / 256)).getD k 0).testBit j = n.testBit (8 * (k + 1) + j)
      rw [ih (n / 256) j hj]
      have hshift : n / 256 = n >>> 8 := by
        rw [Nat.shiftRight_eq_div_pow]
      rw [hshift, Nat.testBit_shiftRight]
      congr 1
      ring

theorem iterBits_length (a : Atom) : a.iterBits.length = a.bit_len := by
  simp [Atom.iterBits]

theorem iterBits_getD (a : Atom) (i : Nat) :
    a.iterBits.getD i false =
      if i < a.bit_len then (a.bytes.getD (i / 8) 0).testBit (i % 8) else false := by
  unfold Atom.iterBits
  by_cases hi : i < a.bit_len
  · rw [if_pos hi]
    rw [List.getD_eq_getElem?_getD, List.getElem?_map, List.getElem?_range hi]
    rfl
  · rw [if_neg hi, List.getD_eq_getElem?_getD]
    have hlen : ((List.range a.bit_len).map
        (fun i => (a.bytes.getD (i / 8) 0).testBit (i % 8))).length = a.bit_len := by
      simp
    rw [List.getElem?_eq_none (by rw [hlen]; omega)]
    rfl

theorem iterBits_fromNat (q : Nat) : (Atom.fromNat q).iterBits = natBits q := by
  unfold Atom.iterBits natBits
  rw [fromNat_bit_len]
  apply List.map_congr_left
  intro i hi
  rw [List.mem_range] at hi
  show ((Atom.fromNat q).bytes.getD (i / 8) 0).testBit (i % 8) = q.testBit i
  show ((natLeBytes q).getD (i / 8) 0).testBit (i % 8) = q.testBit i
  rw [testBit_natLeBytes (i / 8) q (i % 8) (Nat.mod_lt _ (by omega))]
  congr 1
  omega

theorem natBits_length (q : Nat) : (natBits q).length = Nat.size q := by
  simp [natBits]

/-! ## Rebuilding an atom from its bit stream -/

theorem getD_bitsToBytes (k : Nat) :
    ∀ (l : List Bool) (j : Nat), j < 8 →
      ((bitsToBytes l).getD k 0).testBit j = l.getD (8 * k + j) false := by
  induction k with
  | zero =>
    intro l j hj
    by_cases h : l = []
    · rw [h, bitsToBytes_nil]
      simp
    · rw [bitsToBytes_cons_of_ne_nil l h]
      show (bitsToNat (l.take 8)).testBit j = l.getD (8 * 0 + j) false
      rw [testBit_bitsToNat]
      simp only [Nat.mul_zero, Nat.zero_add]
      rw [List.getD_eq_getElem?_getD, List.getD_eq_getElem?_getD,
        List.getElem?_take_of_lt hj]
  | succ k ih =>
    intro l j hj
    by_cases h : l = []
    · rw [h, bitsToBytes_nil]
      simp
    · rw [bitsToBytes_cons_of_ne_nil l h]
      show ((bitsToBytes (l.drop 8)).getD k 0).testBit j = l.getD (8 * (k + 1) + j) false
      rw [ih (l.drop 8) j hj]
      rw [List.getD_eq_getElem?_getD, List.getD_eq_getElem?_getD, List.getElem?_drop]
      congr 2
      ring

theorem bitsToBytes_bytes_lt (l : List Bool) : ∀ b ∈ bitsToBytes l, b < 256 := by
  induction l using bitsToBytes.induct with
  | case1 => rw [bitsToBytes_nil]; simp
  | case2 l hne ih =>
    rw [bitsToBytes_cons_of_ne_nil l hne]
    intro b hb
    rcases List.mem_cons.mp hb with rfl | hmem
    · calc bitsToNat (l.take 8) < 2 ^ (l.take 8).length := bitsToNat_lt _
      _ ≤ 2 ^ 8 := Nat.pow_le_pow_right (by omega) (by simp)
      _ = 256 := by norm_num
    · exact ih b hmem

/-- Rebuilding the bytes of a canonical atom from its bit iterator gives the
bytes back: this is why `decode_atom` inverts `encode_atom`. -/
theorem bitsToBytes_iterBits (a : Atom) (ha : a.Wf) :
    bitsToBytes a.iterBits = a.bytes := by
  obtain ⟨hlt, hlast, hbl⟩ := ha
  by_cases hnil : a.bytes = []
  · have hz : a.bit_len = 0 := by rw [hbl, hnil, bitLen_nil]
    have : a.iterBits = [] := by
      have := iterBits_length a
      rw [hz] at this
      exact List.length_eq_zero.mp this
    rw [this, bitsToBytes_nil, hnil]
  · -- a.bytes = front ++ [last] with last ≠ 0, last < 256
    match hlastEq : a.bytes.getLast? with
    | none => exact absurd (List.getLast?_eq_none_iff.mp hlastEq) hnil
    | some last =>
      have hlast0 : last ≠ 0 := fun h => hlast (h ▸ hlastEq)
      have hlast256 : last < 256 :=
        hlt last (List.mem_of_getLast?_eq_some hlastEq)
      have hsize : 1 ≤ Nat.size last ∧ Nat.size last ≤ 8 := by
        constructor
        · exact Nat.size_pos.mpr (Nat.pos_of_ne_zero hlast0)
        · exact Nat.size_le.mpr (by norm_num; omega)
      have hL : 0 < a.bytes.length := List.length_pos.mpr hnil
      have hblv : a.bit_len = 8 * (a.bytes.length - 1) + Nat.size last := by
        rw [hbl]
        unfold bitLen
        rw [hlastEq]
      -- lengths agree
      have hlen : (bitsToBytes a.iterBits).length = a.bytes.length := by
        rw [bitsToBytes_length, iterBits_length, hblv]
        omega
      apply List.ext_getElem hlen
      intro k hk1 hk2
      -- byte-wise equality via testBit extensionality
      have hbyte_lt : (bitsToBytes a.iterBits)[k] < 256 :=
        bitsToBytes_bytes_lt _ _ (List.getElem_mem _)
      have hbyte_lt' : a.bytes[k] < 256 := hlt _ (List.getElem_mem _)
      apply Nat.eq_of_testBit_eq
      intro j
      by_cases hj : j < 8
      · have hgl : (bitsToBytes a.iterBits)[k] = (bitsToBytes a.iterBits).getD k 0 := by
          rw [List.getD_eq_getElem?_getD, List.getElem?_eq_getElem hk1]
          rfl
        have hgr : a.bytes[k] = a.bytes.getD k 0 := by
          rw [List.getD_eq_getElem?_getD, List.getElem?_eq_getElem hk2]
          rfl
        rw [hgl, hgr, getD_bitsToBytes k a.iterBits j hj, iterBits_getD]
        by_cases hin : 8 * k + j < a.bit_len
        · rw [if_pos hin]
          congr 1
          · congr 1
            omega
          · omega
        · -- beyond the bit length: both sides are false
          rw [if_neg hin]
          have hklast : k = a.bytes.length - 1 := by
            rw [hblv] at hin
            omega
          have hjsize : Nat.size last ≤ j := by
            rw [hblv] at hin
            omega
          have : a.bytes.getD k 0 = last := by
            rw [List.getD_eq_getElem?_getD, hklast, ← List.getLast?_eq_getElem?, hlastEq]
            rfl
          rw [this, testBit_eq_false_of_size_le hjsize]
      · rw [Nat.testBit_lt_two_pow, Nat.testBit_lt_two_pow]
        · calc a.bytes[k] < 256 := hbyte_lt'
          _ ≤ 2 ^ j := by
            calc (256 : Nat) = 2 ^ 8 := by norm_num
            _ ≤ 2 ^ j := Nat.pow_le_pow_right (by omega) (by omega)
        · calc (bitsToBytes a.iterBits)[k] < 256 := hbyte_lt
          _ ≤ 2 ^ j := by
            calc (256 : Nat) = 2 ^ 8 := by norm_num
            _ ≤ 2 ^ j := Nat.pow_le_pow_right (by omega) (by omega)

theorem readBitsB_spec (l : List Bool) :
    ∀ (rest : List Bool) (bld : Builder),
      readBitsB l.length (l ++ rest) bld = .ok (bld.pushAll l, rest) := by
  induction l with
  | nil => intro rest bld; rfl
  | cons b l ih =>
    intro rest bld
    show readBitsB l.length (l ++ rest) (bld.pushBit b) = .ok (bld.pushAll (b :: l), rest)
    rw [ih rest (bld.pushBit b)]
    rfl

/-- A well-formed atom with bit length zero is the canonical zero atom. -/
theorem wf_bit_len_zero (a : Atom) (ha : a.Wf) (h0 : a.bit_len = 0) :
    a = Atom.fromNat 0 := by
  obtain ⟨hlt, hlast, hbl⟩ := ha
  have hnil : a.bytes = [] := by
    match hlastEq : a.bytes.getLast? with
    | none => exact List.getLast?_eq_none_iff.mp hlastEq
    | some last =>
      exfalso
      have hlast0 : last ≠ 0 := fun h => hlast (h ▸ hlastEq)
      have hs : 1 ≤ Nat.size last := Nat.size_pos.mpr (Nat.pos_of_ne_zero hlast0)
      have hbl2 : bitLen a.bytes = 8 * (a.bytes.length - 1) + Nat.size last := by
        unfold bitLen
        rw [hlastEq]
      rw [hbl, hbl2] at h0
      omega
  have : a = ⟨a.bytes, a.bit_len⟩ := rfl
  rw [this, hnil, h0]
  show (⟨[], 0⟩ : Atom) = Atom.fromNat 0
  unfold Atom.fromNat
  rw [natLeBytes_nil]
  rfl

/-- `decode_atom` inverts the atom body emitted by `encode_atom` (everything
after the atom tag bit) for every well-formed atom whose bit length fits the
64-bit length register. -/
theorem decodeAtom_spec (a : Atom) (ha : a.Wf) (hbl : a.bit_len < 2 ^ 64)
    (rest : List Bool) :
    decodeAtom (encodeLenBits a.bit_len ++ a.iterBits ++ rest) = .ok (a, rest) := by
  have hassoc : encodeLenBits a.bit_len ++ a.iterBits ++ rest =
      encodeLenBits a.bit_len ++ (a.iterBits ++ rest) := by
    rw [List.append_assoc]
  rw [hassoc]
  unfold decodeAtom
  rw [decodeLen_encodeLenBits a.bit_len hbl]
  by_cases h0 : a.bit_len = 0
  · have hiter : a.iterBits = [] := by
      have := iterBits_length a
      rw [h0] at this
      exact List.length_eq_zero.mp this
    rw [h0, hiter, List.nil_append, wf_bit_len_zero a ha h0]
    rfl
  · simp only [if_neg h0]
    have hlen : a.iterBits.length = a.bit_len := iterBits_length a
    rw [← hlen, readBitsB_spec a.iterBits rest Builder.new, pushAll_new]
    show Except.ok ((Builder.intoAtom ⟨bitsToBytes a.iterBits, a.iterBits.length⟩), rest) =
      Except.ok (a, rest)
    unfold Builder.intoAtom
    rw [bitsToBytes_iterBits a ha]
    have : bitLen a.bytes = a.bit_len := (ha.2.2).symm
    rw [this]

/-! ## The encoder's cache-hit branch (claims C2, C3) -/

theorem backrefBits_eq (q : Nat) :
    backrefBits q = true :: true :: (encodeLenBits (Nat.size q) ++ natBits q) := by
  unfold backrefBits
  rw [fromNat_bit_len, iterBits_fromNat]

/-- The bits the cache-hit branch emits, written out as the spec describes
them: an inline atom is tag `0`, length prefix, atom bits; a back-reference
is tag `11`, then the index `q` as a length-prefixed atom, bits low first. -/
def hitBits (n : Noun) (q : Nat) : List Bool :=
  match n with
  | .atom a =>
    if a.bit_len ≤ Nat.size q
    then false :: (encodeLenBits a.bit_len ++ a.iterBits)
    else true :: true :: (encodeLenBits (Nat.size q) ++ natBits q)
  | .cell _ _ => true :: true :: (encodeLenBits (Nat.size q) ++ natBits q)

theorem encodeList_hit (n : Noun) (ec : ECache) (p q : Nat) (h : ec n = some q) :
    encodeList n ec p = (hitBits n q, ec) := by
  cases n with
  | atom a =>
    unfold encodeList
    rw [h]
    show (if a.bit_len ≤ Nat.size q then (encodeAtomBits a, ec) else (backrefBits q, ec)) =
      (hitBits (.atom a) q, ec)
    simp only [hitBits]
    by_cases hle : a.bit_len ≤ Nat.size q
    · rw [if_pos hle, if_pos hle]
      rfl
    · rw [if_neg hle, if_neg hle, backrefBits_eq]
  | cell hh tt =>
    unfold encodeList
    rw [h]
    show (backrefBits q, ec) = (hitBits (.cell hh tt) q, ec)
    simp only [hitBits]
    rw [backrefBits_eq]

theorem encodeList_atom_miss (a : Atom) (ec : ECache) (p : Nat)
    (hc : ec (.atom a) = none) :
    encodeList (.atom a) ec p = (encodeAtomBits a, ec.insert (.atom a) p) := by
  unfold encodeList
  rw [hc]

theorem encodeList_cell_miss (hh tt : Noun) (ec : ECache) (p : Nat)
    (hc : ec (.cell hh tt) = none) :
    encodeList (.cell hh tt) ec p =
      (true :: false ::
          ((encodeList hh (ec.insert (.cell hh tt) p) (p + 2)).1 ++
            (encodeList tt (encodeList hh (ec.insert (.cell hh tt) p) (p + 2)).2
              (p + 2 + (encodeList hh (ec.insert (.cell hh tt) p) (p + 2)).1.length)).1),
        (encodeList tt (encodeList hh (ec.insert (.cell hh tt) p) (p + 2)).2
          (p + 2 + (encodeList hh (ec.insert (.cell hh tt) p) (p + 2)).1.length)).2) := by
  conv_lhs => rw [encodeList]
  rw [hc]

/-- Encoding only grows the cache (the fresh branch checks absence before
inserting, so no key is ever overwritten). -/
theorem encodeList_cache_mono (n : Noun) :
    ∀ (ec : ECache) (p : Nat) (m : Noun) (v : Nat),
      ec m = some v → (encodeList n ec p).2 m = some v := by
  induction n with
  | atom a =>
    intro ec p m v hm
    match hc : ec (.atom a) with
    | some q =>
      rw [encodeList_hit _ _ _ _ hc]
      exact hm
    | none =>
      rw [encodeList_atom_miss a ec p hc]
      show (ec.insert (.atom a) p) m = some v
      unfold ECache.insert
      by_cases hmn : m = Noun.atom a
      · rw [hmn] at hm
        rw [hm] at hc
        exact Option.noConfusion hc
      · rw [if_neg hmn]
        exact hm
  | cell hh tt ihh iht =>
    intro ec p m v hm
    match hc : ec (.cell hh tt) with
    | some q =>
      rw [encodeList_hit _ _ _ _ hc]
      exact hm
    | none =>
      have hins : (ec.insert (.cell hh tt) p) m = some v := by
        unfold ECache.insert
        by_cases hmn : m = Noun.cell hh tt
        · rw [hmn] at hm
          rw [hm] at hc
          exact Option.noConfusion hc
        · rw [if_neg hmn]
          exact hm
      rw [encodeList_cell_miss hh tt ec p hc]
      exact iht _ _ _ _ (ihh _ _ _ _ hins)

/-- After a noun has been encoded it is present in the encoder cache, so a
later structurally equal occurrence takes the cache-hit branch. -/
theorem encodeList_cache_self (n : Noun) (ec : ECache) (p : Nat) :
    ∃ q, (encodeList n ec p).2 n = some q := by
  match hc : ec n with
  | some q =>
    rw [encodeList_hit _ _ _ _ hc]
    exact ⟨q, hc⟩
  | none =>
    have hins : (ec.insert n p) n = some p := by
      unfold ECache.insert
      rw [if_pos rfl]
    cases n with
    | atom a =>
      refine ⟨p, ?_⟩
      rw [encodeList_atom_miss a ec p hc]
      exact hins
    | cell hh tt =>
      refine ⟨p, ?_⟩
      rw [encodeList_cell_miss hh tt ec p hc]
      exact encodeList_cache_mono tt _ _ _ _ (encodeList_cache_mono hh _ _ _ _ hins)

/-- C2: back-reference size policy.  Whenever the noun being encoded is
already in the encoder cache at bit position `q`: if it is an atom, the
encoder emits the atom inline (tag `0`, length prefix, atom bits) exactly
when `bit_len(atom) ≤ bit_len(q)` (with `bit_len(q) = u64::BITS -
q.leading_zeros() = Nat.size q`), and otherwise emits tag `11` followed by
`q` as a length-prefixed atom with its bits low first; a cached cell always
gets the back-reference.  The cache itself is unchanged by the hit branch. -/
theorem encode_cached_policy (n : Noun) (ec : ECache) (p q : Nat) (h : ec n = some q) :
    (encodeList n ec p).1 =
      (match n with
       | .atom a =>
         if a.bit_len ≤ Nat.size q
         then false :: (encodeLenBits a.bit_len ++ a.iterBits)
         else true :: true :: (encodeLenBits (Nat.size q) ++ natBits q)
       | .cell _ _ => true :: true :: (encodeLenBits (Nat.size q) ++ natBits q)) ∧
    (encodeList n ec p).2 = ec := by
  rw [encodeList_hit n ec p q h]
  cases n with
  | atom a => exact ⟨rfl, rfl⟩
  | cell hh tt => exact ⟨rfl, rfl⟩

theorem encode_cached_policy_witness :
    ((ECache.empty.insert (Noun.atom (Atom.fromNat 3)) 2) (Noun.atom (Atom.fromNat 3))
        = some 2) ∧
      (encodeList (Noun.atom (Atom.fromNat 3))
          (ECache.empty.insert (Noun.atom (Atom.fromNat 3)) 2) 10).1 =
        (if (Atom.fromNat 3).bit_len ≤ Nat.size 2
         then false :: (encodeLenBits (Atom.fromNat 3).bit_len ++ (Atom.fromNat 3).iterBits)
         else true :: true :: (encodeLenBits (Nat.size 2) ++ natBits 2)) := by
  have h : (ECache.empty.insert (Noun.atom (Atom.fromNat 3)) 2) (Noun.atom (Atom.fromNat 3))
      = some 2 := by
    unfold ECache.insert
    rw [if_pos rfl]
  exact ⟨h, (encode_cached_policy (Noun.atom (Atom.fromNat 3)) _ 10 2 h).1⟩

/-- C3: content-addressed deduplication.  The encoder cache is looked up and
extended by structural equality (the model's cache maps nouns, compared
structurally exactly as the derived `Hash`/`PartialEq` of `Rc<Noun>` do), so
in `[n n]` — where the two children are two structurally equal subtrees,
regardless of any pointer sharing, which the tree model cannot even express —
the second occurrence of `n` hits the cache entry left by the first and is
emitted via the hit branch: a back-reference, or the size-limited inline atom
form.  The emitted stream depends only on the tree structure. -/
theorem jam_dedup_structural (n : Noun) :
    ∃ q, (encodeList n (ECache.empty.insert (Noun.cell n n) 0) 2).2 n = some q ∧
      Noun.jamBits (Noun.cell n n) =
        true :: false ::
          ((encodeList n (ECache.empty.insert (Noun.cell n n) 0) 2).1 ++ hitBits n q) := by
  obtain ⟨q, hq⟩ := encodeList_cache_self n (ECache.empty.insert (Noun.cell n n) 0) 2
  refine ⟨q, hq, ?_⟩
  unfold Noun.jamBits
  rw [encodeList_cell_miss n n ECache.empty 0 rfl]
  simp only [Nat.zero_add]
  rw [encodeList_hit n _ _ q hq]

/-! ## The builder-level encoder emits the same bits -/

theorem pushAll_append (b : Builder) (l₁ l₂ : List Bool) :
    b.pushAll (l₁ ++ l₂) = (b.pushAll l₁).pushAll l₂ := by
  simp [Builder.pushAll]

theorem pushAll_pos (l : List Bool) : ∀ b : Builder, (b.pushAll l).pos = b.pos + l.length := by
  induction l with
  | nil => intro b; rfl
  | cons x l ih =>
    intro b
    show ((b.pushBit x).pushAll l).pos = b.pos + (x :: l).length
    rw [ih (b.pushBit x)]
    show (b.pushBit x).bit_idx + l.length = b.bit_idx + (l.length + 1)
    show b.bit_idx + 1 + l.length = b.bit_idx + (l.length + 1)
    omega

/-- `encode` on the builder (the recursion `jam` runs) pushes exactly the
bits `encodeList` describes, using `bits.pos()` as the cache position. -/
theorem encodeB_pushAll (n : Noun) :
    ∀ (b : Builder) (ec : ECache),
      encodeB n b ec = (b.pushAll (encodeList n ec b.pos).1, (encodeList n ec b.pos).2) := by
  induction n with
  | atom a =>
    intro b ec
    match hc : ec (.atom a) with
    | some q =>
      rw [encodeList_hit _ _ _ _ hc]
      unfold encodeB
      rw [hc]
      show (if a.bit_len ≤ Nat.size q
            then (b.pushAll (encodeAtomBits a), ec)
            else (b.pushAll (backrefBits q), ec)) = (b.pushAll (hitBits (.atom a) q), ec)
      simp only [hitBits]
      by_cases hle : a.bit_len ≤ Nat.size q
      · rw [if_pos hle, if_pos hle]
        rfl
      · rw [if_neg hle, if_neg hle, backrefBits_eq]
    | none =>
      rw [encodeList_atom_miss a ec b.pos hc]
      unfold encodeB
      rw [hc]
  | cell hh tt ihh iht =>
    intro b ec
    match hc : ec (.cell hh tt) with
    | some q =>
      rw [encodeList_hit _ _ _ _ hc]
      unfold encodeB
      rw [hc]
      show (b.pushAll (backrefBits q), ec) = (b.pushAll (hitBits (.cell hh tt) q), ec)
      simp only [hitBits]
      rw [backrefBits_eq]
    | none =>
      rw [encodeList_cell_miss hh tt ec b.pos hc]
      conv_lhs => rw [encodeB]
      rw [hc]
      show (encodeB tt (encodeB hh (b.pushAll [true, false]) (ec.insert (.cell hh tt) b.pos)).1
              (encodeB hh (b.pushAll [true, false]) (ec.insert (.cell hh tt) b.pos)).2) = _
      have hpos1 : (b.pushAll [true, false]).pos = b.pos + 2 := by
        rw [pushAll_pos]
        rfl
      rw [ihh (b.pushAll [true, false]) (ec.insert (.cell hh tt) b.pos), hpos1]
      set ec1 := ec.insert (.cell hh tt) b.pos
      set r2 := encodeList hh ec1 (b.pos + 2) with hr2
      have hpos2 : ((b.pushAll [true, false]).pushAll r2.1).pos = b.pos + 2 + r2.1.length := by
        rw [pushAll_pos, hpos1]
      rw [iht ((b.pushAll [true, false]).pushAll r2.1) r2.2, hpos2]
      set r3 := encodeList tt r2.2 (b.pos + 2 + r2.1.length) with hr3
      rw [← pushAll_append, ← pushAll_append]
      rfl

theorem jam_builder (n : Noun) :
    Noun.jam n = (Builder.new.pushAll (Noun.jamBits n)).intoAtom := by
  unfold Noun.jam Noun.jamBits
  rw [encodeB_pushAll n Builder.new ECache.empty]
  rfl

/-! ## Every jam stream ends in a 1 bit -/

theorem encodeLenBits_ne_nil (L : Nat) : encodeLenBits L ≠ [] := by
  unfold encodeLenBits
  intro h
  have := congrArg List.length h
  simp at this

theorem iterBits_getLast (a : Atom) (ha : a.Wf) (h0 : a.bit_len ≠ 0) :
    a.iterBits.getLast? = some true := by
  obtain ⟨hlt, hlast, hbl⟩ := ha
  match hlastEq : a.bytes.getLast? with
  | none =>
    exfalso
    apply h0
    rw [hbl]
    unfold bitLen
    rw [hlastEq]
  | some last =>
    have hlast0 : last ≠ 0 := fun h => hlast (h ▸ hlastEq)
    have hlast256 : last < 256 := hlt last (List.mem_of_getLast?_eq_some hlastEq)
    have hs1 : 1 ≤ Nat.size last := Nat.size_pos.mpr (Nat.pos_of_ne_zero hlast0)
    have hs8 : Nat.size last ≤ 8 := Nat.size_le.mpr (by norm_num; omega)
    have hne : a.bytes ≠ [] := by
      intro hnil
      rw [hnil] at hlastEq
      exact Option.noConfusion hlastEq
    have hL : 0 < a.bytes.length := List.length_pos.mpr hne
    have hblv : a.bit_len = 8 * (a.bytes.length - 1) + Nat.size last := by
      rw [hbl]
      unfold bitLen
      rw [hlastEq]
    have hlen : a.iterBits.length = a.bit_len := iterBits_length a
    rw [List.getLast?_eq_getElem?, hlen]
    have hpos : a.bit_len - 1 < a.bit_len := by omega
    unfold Atom.iterBits
    rw [List.getElem?_map, List.getElem?_range hpos]
    show some ((a.bytes.getD ((a.bit_len - 1) / 8) 0).testBit ((a.bit_len - 1) % 8)) =
      some true
    have hdiv : (a.bit_len - 1) / 8 = a.bytes.length - 1 := by
      rw [hblv]
      omega
    have hmod : (a.bit_len - 1) % 8 = Nat.size last - 1 := by
      rw [hblv]
      omega
    rw [hdiv, hmod]
    have hgd : a.bytes.getD (a.bytes.length - 1) 0 = last := by
      rw [List.getD_eq_getElem?_getD, ← List.getLast?_eq_getElem?, hlastEq]
      rfl
    rw [hgd, testBit_size_sub_one last hlast0]

/-- The body of an encoded atom (length prefix plus payload) ends in a 1
bit. -/
theorem atomBody_getLast (a : Atom) (ha : a.Wf) :
    (encodeLenBits a.bit_len ++ a.iterBits).getLast? = some true := by
  by_cases h0 : a.bit_len = 0
  · have hiter : a.iterBits = [] := by
      have := iterBits_length a
      rw [h0] at this
      exact List.length_eq_zero.mp this
    rw [hiter, List.append_nil, h0]
    unfold encodeLenBits
    rw [Nat.size_zero]
    rfl
  · rw [List.getLast?_append, iterBits_getLast a ha h0]
    rfl

theorem encodeList_getLast (n : Noun) :
    ∀ (ec : ECache) (p : Nat), n.Wf →
      (encodeList n ec p).1 ≠ [] ∧ (encodeList n ec p).1.getLast? = some true := by
  have hatom : ∀ a : Atom, Atom.Wf a →
      encodeAtomBits a ≠ [] ∧ (encodeAtomBits a).getLast? = some true := by
    intro a ha
    constructor
    · simp [encodeAtomBits]
    · show (false :: (encodeLenBits a.bit_len ++ a.iterBits)).getLast? = some true
      have hsplit : false :: (encodeLenBits a.bit_len ++ a.iterBits) =
          [false] ++ (encodeLenBits a.bit_len ++ a.iterBits) := rfl
      rw [hsplit, List.getLast?_append, atomBody_getLast a ha]
      rfl
  have hback : ∀ q : Nat, backrefBits q ≠ [] ∧ (backrefBits q).getLast? = some true := by
    intro q
    constructor
    · simp [backrefBits]
    · show (true :: true :: (encodeLenBits (Atom.fromNat q).bit_len ++
          (Atom.fromNat q).iterBits)).getLast? = some true
      have hsplit : true :: true :: (encodeLenBits (Atom.fromNat q).bit_len ++
          (Atom.fromNat q).iterBits) = [true, true] ++
          (encodeLenBits (Atom.fromNat q).bit_len ++ (Atom.fromNat q).iterBits) := rfl
      rw [hsplit, List.getLast?_append, atomBody_getLast (Atom.fromNat q) (fromNat_wf q)]
      rfl
  induction n with
  | atom a =>
    intro ec p hwf
    match hc : ec (.atom a) with
    | some q =>
      rw [encodeList_hit _ _ _ _ hc]
      show hitBits (.atom a) q ≠ [] ∧ (hitBits (.atom a) q).getLast? = some true
      simp only [hitBits]
      by_cases hle : a.bit_len ≤ Nat.size q
      · rw [if_pos hle]
        have := hatom a hwf
        unfold encodeAtomBits at this
        exact this
      · rw [if_neg hle]
        have := hback q
        rw [backrefBits_eq] at this
        exact this
    | none =>
      rw [encodeList_atom_miss a ec p hc]
      exact hatom a hwf
  | cell hh tt ihh iht =>
    intro ec p hwf
    match hc : ec (.cell hh tt) with
    | some q =>
      rw [encodeList_hit _ _ _ _ hc]
      show hitBits (.cell hh tt) q ≠ [] ∧ (hitBits (.cell hh tt) q).getLast? = some true
      simp only [hitBits]
      have := hback q
      rw [backrefBits_eq] at this
      exact this
    | none =>
      rw [encodeList_cell_miss hh tt ec p hc]
      obtain ⟨htne, htlast⟩ := iht (encodeList hh (ec.insert (.cell hh tt) p) (p + 2)).2
        (p + 2 + (encodeList hh (ec.insert (.cell hh tt) p) (p + 2)).1.length) hwf.2
      constructor
      · simp
      · show (true :: false :: (_ ++ _)).getLast? = some true
        have hsplit : ∀ (x y : List Bool), true :: false :: (x ++ y) =
            ([true, false] ++ x) ++ y := by
          intro x y
          simp
        rw [hsplit, List.getLast?_append, htlast]
        rfl

/-! ## One step of the decoder on each encoded entity -/

theorem decodeF_atom_eq (fuel pos : Nat) (dc : DCache) (rest : List Bool) :
    decodeF (fuel + 1) (false :: rest) pos dc =
      match decodeAtom rest with
      | .error e => .error e
      | .ok (a, rest') =>
        .ok (.atom a, pos + 1 + (rest.length - rest'.length), rest',
          dc.insert pos (.atom a)) := rfl

theorem decodeF_backref_eq (fuel pos : Nat) (dc : DCache) (rest : List Bool) :
    decodeF (fuel + 1) (true :: true :: rest) pos dc =
      match decodeAtom rest with
      | .error e => .error e
      | .ok (ia, rest') =>
        match ia.asU64 with
        | none => .error .invalidBackref
        | some idx =>
          match dc idx with
          | none => .error .cacheMiss
          | some m => .ok (m, pos + 2 + (rest.length - rest'.length), rest', dc) := rfl

theorem decodeF_cell_eq (fuel pos : Nat) (dc : DCache) (rest2 : List Bool) :
    decodeF (fuel + 1) (true :: false :: rest2) pos dc =
      match decodeF fuel rest2 (pos + 2) dc with
      | .error e => .error e
      | .ok (h, posT, remT, dc1) =>
        match decodeF fuel remT posT (dc1.insert (pos + 2) h) with
        | .error e => .error e
        | .ok (t, pos', rem', dc3) =>
          .ok (.cell h t, pos', rem', dc3.insert posT t) := rfl

theorem encodeAtomBits_length (a : Atom) :
    (encodeAtomBits a).length = 1 + (encodeLenBits a.bit_len).length + a.bit_len := by
  simp [encodeAtomBits, List.length_append, iterBits_length]
  omega

theorem backrefBits_length (q : Nat) :
    (backrefBits q).length = 2 + (encodeLenBits (Nat.size q)).length + Nat.size q := by
  simp [backrefBits, List.length_append, iterBits_length, fromNat_bit_len]
  omega

/-- The decoder on an inline atom: consumes exactly the emitted bits,
returns the atom, and caches it at the tag position. -/
theorem decodeF_inline_atom (a : Atom) (ha : a.Wf) (hbl : a.bit_len < 2 ^ 64)
    (fuel pos : Nat) (dc : DCache) (rest : List Bool) :
    decodeF (fuel + 1) (encodeAtomBits a ++ rest) pos dc =
      .ok (.atom a, pos + (encodeAtomBits a).length, rest, dc.insert pos (.atom a)) := by
  show decodeF (fuel + 1)
      (false :: (encodeLenBits a.bit_len ++ a.iterBits ++ rest)) pos dc = _
  rw [decodeF_atom_eq, decodeAtom_spec a ha hbl rest]
  show Except.ok (Noun.atom a,
      pos + 1 + ((encodeLenBits a.bit_len ++ a.iterBits ++ rest).length - rest.length),
      rest, dc.insert pos (.atom a)) = _
  have hlen : (encodeLenBits a.bit_len ++ a.iterBits ++ rest).length - rest.length =
      (encodeLenBits a.bit_len).length + a.bit_len := by
    simp [List.length_append, iterBits_length]
    omega
  rw [hlen, encodeAtomBits_length]
  have harith : pos + 1 + ((encodeLenBits a.bit_len).length + a.bit_len) =
      pos + (1 + (encodeLenBits a.bit_len).length + a.bit_len) := by omega
  rw [harith]

/-- The decoder on a back-reference to a cached position: consumes exactly
the emitted bits and returns the cached noun, leaving the cache unchanged. -/
theorem decodeF_backref_hit (q : Nat) (hq : q < 2 ^ 64) (m : Noun)
    (fuel pos : Nat) (dc : DCache) (hdc : dc q = some m) (rest : List Bool) :
    decodeF (fuel + 1) (backrefBits q ++ rest) pos dc =
      .ok (m, pos + (backrefBits q).length, rest, dc) := by
  show decodeF (fuel + 1)
      (true :: true :: (encodeLenBits (Atom.fromNat q).bit_len ++
        (Atom.fromNat q).iterBits ++ rest)) pos dc = _
  have hbl : (Atom.fromNat q).bit_len < 2 ^ 64 := by
    rw [fromNat_bit_len]
    calc Nat.size q ≤ 64 := Nat.size_le.mpr hq
    _ < 2 ^ 64 := by norm_num
  rw [decodeF_backref_eq, decodeAtom_spec (Atom.fromNat q) (fromNat_wf q) hbl rest]
  show (match (Atom.fromNat q).asU64 with
        | none => Except.error Error.invalidBackref
        | some idx =>
          match dc idx with
          | none => Except.error Error.cacheMiss
          | some m =>
            Except.ok (m,
              pos + 2 + ((encodeLenBits (Atom.fromNat q).bit_len ++
                (Atom.fromNat q).iterBits ++ rest).length - rest.length), rest, dc)) = _
  rw [asU64_fromNat q hq]
  show (match dc q with
        | none => Except.error Error.cacheMiss
        | some m =>
          Except.ok (m,
            pos + 2 + ((encodeLenBits (Atom.fromNat q).bit_len ++
              (Atom.fromNat q).iterBits ++ rest).length - rest.length), rest, dc)) = _
  rw [hdc]
  show Except.ok (m,
      pos + 2 + ((encodeLenBits (Atom.fromNat q).bit_len ++
        (Atom.fromNat q).iterBits ++ rest).length - rest.length), rest, dc) = _
  have hlen : (encodeLenBits (Atom.fromNat q).bit_len ++
      (Atom.fromNat q).iterBits ++ rest).length - rest.length =
      (encodeLenBits (Nat.size q)).length + Nat.size q := by
    simp [List.length_append, iterBits_length, fromNat_bit_len]
    omega
  rw [hlen, backrefBits_length]
  have harith : pos + 2 + ((encodeLenBits (Nat.size q)).length + Nat.size q) =
      pos + (2 + (encodeLenBits (Nat.size q)).length + Nat.size q) := by omega
  rw [harith]

theorem size_head_lt (h t : Noun) : h.size < (Noun.cell h t).size := by
  show h.size < 1 + h.size + t.size
  omega

theorem size_tail_lt (h t : Noun) : t.size < (Noun.cell h t).size := by
  show t.size < 1 + h.size + t.size
  omega

/-! ## The codec invariant

`DecSpec n` says: decoding the bits `encode` emits for `n` — at the same
position, against a decoder cache that mirrors the encoder cache — returns
`n`, consumes exactly those bits, and re-establishes the mirror.  The mirror
hypothesis allows exactly the strict ancestors of `n` (still being encoded,
hence structurally larger) to be unmirrored; the conclusion allows exactly
the old unmirrored entries plus `n`'s own fresh entry (its parent inserts the
decoder-side mirror right after this call returns, as the source does). -/
def DecSpec (n : Noun) : Prop :=
  ∀ (ec : ECache) (p : Nat) (dc : DCache) (rest : List Bool) (fuel : Nat),
    n.Wf →
    (encodeList n ec p).1.length < fuel →
    p + (encodeList n ec p).1.length ≤ 2 ^ 64 →
    (∀ m q, ec m = some q → q < p) →
    (∀ m q, ec m = some q → dc q = some m ∨ n.size < m.size) →
    (∀ q, p ≤ q → dc q = none) →
    ∃ dc',
      decodeF fuel ((encodeList n ec p).1 ++ rest) p dc =
        .ok (n, p + (encodeList n ec p).1.length, rest, dc') ∧
      (∀ q v, dc q = some v → dc' q = some v) ∧
      (∀ q, q < p → dc' q = dc q) ∧
      (∀ q, p + (encodeList n ec p).1.length ≤ q → dc' q = none) ∧
      (dc' p = none ∨ dc' p = some n) ∧
      (∀ m q, (encodeList n ec p).2 m = some q → q < p + (encodeList n ec p).1.length) ∧
      (∀ m q, (encodeList n ec p).2 m = some q →
        dc' q = some m ∨ (ec m = some q ∧ dc q ≠ some m) ∨ (m = n ∧ q = p))

theorem encodeLenBits_length_pos (L : Nat) : 1 ≤ (encodeLenBits L).length := by
  unfold encodeLenBits
  simp
  omega

theorem encodeAtomBits_length_pos (a : Atom) : 1 ≤ (encodeAtomBits a).length := by
  simp [encodeAtomBits]

theorem backrefBits_length_pos (q : Nat) : 1 ≤ (backrefBits q).length := by
  simp [backrefBits]

/-- The decoder mirrors the encoder on atoms. -/
theorem decSpec_atom (a : Atom) : DecSpec (.atom a) := by
  intro ec p dc rest fuel hwf hfuel hbound hpos hcov hfresh
  obtain ⟨f, rfl⟩ : ∃ f, fuel = f + 1 := ⟨fuel - 1, by omega⟩
  have hwa : a.Wf := hwf
  match hc : ec (.atom a) with
  | some q₀ =>
    by_cases hle : a.bit_len ≤ Nat.size q₀
    · -- cache hit, but the atom is re-emitted inline
      have hbits : (encodeList (.atom a) ec p).1 = encodeAtomBits a := by
        rw [encodeList_hit _ _ _ _ hc]
        show hitBits (.atom a) q₀ = encodeAtomBits a
        simp only [hitBits, if_pos hle]
        rfl
      have hcache : (encodeList (.atom a) ec p).2 = ec := by
        rw [encodeList_hit _ _ _ _ hc]
      rw [hbits] at hfuel hbound ⊢
      rw [hcache]
      have hbl : a.bit_len < 2 ^ 64 := by
        have h1 := encodeLenBits_length_pos a.bit_len
        have h2 := encodeAtomBits_length a
        omega
      refine ⟨dc.insert p (.atom a),
        decodeF_inline_atom a hwa hbl f p dc rest, ?_, ?_, ?_, ?_, ?_, ?_⟩
      · intro q v hv
        show (if q = p then some (Noun.atom a) else dc q) = some v
        by_cases hqp : q = p
        · rw [hqp] at hv
          rw [hfresh p (le_refl p)] at hv
          exact Option.noConfusion hv
        · rw [if_neg hqp]
          exact hv
      · intro q hq
        show (if q = p then some (Noun.atom a) else dc q) = dc q
        rw [if_neg (by omega)]
      · intro q hq
        have h2 := encodeAtomBits_length_pos a
        show (if q = p then some (Noun.atom a) else dc q) = none
        rw [if_neg (by omega)]
        exact hfresh q (by omega)
      · right
        show (if p = p then some (Noun.atom a) else dc p) = some (Noun.atom a)
        rw [if_pos rfl]
      · intro m q hm
        have := hpos m q hm
        have h2 := encodeAtomBits_length_pos a
        omega
      · intro m q hm
        by_cases hd : dc q = some m
        · left
          show (if q = p then some (Noun.atom a) else dc q) = some m
          rw [if_neg (by have := hpos m q hm; omega)]
          exact hd
        · right; left
          exact ⟨hm, hd⟩
    · -- cache hit, emitted as a back-reference to q₀
      have hbits : (encodeList (.atom a) ec p).1 = backrefBits q₀ := by
        rw [encodeList_hit _ _ _ _ hc]
        show hitBits (.atom a) q₀ = backrefBits q₀
        simp only [hitBits, if_neg hle]
        rw [backrefBits_eq]
      have hcache : (encodeList (.atom a) ec p).2 = ec := by
        rw [encodeList_hit _ _ _ _ hc]
      rw [hbits] at hfuel hbound ⊢
      rw [hcache]
      have hq₀p : q₀ < p := hpos _ _ hc
      have hlen1 : 1 ≤ (backrefBits q₀).length := backrefBits_length_pos q₀
      have hq64 : q₀ < 2 ^ 64 := by omega
      have hdcq : dc q₀ = some (.atom a) := by
        rcases hcov _ _ hc with h | h
        · exact h
        · exact absurd h (lt_irrefl _)
      refine ⟨dc, decodeF_backref_hit q₀ hq64 (.atom a) f p dc hdcq rest,
        fun q v hv => hv, fun q _ => rfl, ?_, ?_, ?_, ?_⟩
      · intro q hq
        exact hfresh q (by omega)
      · left
        exact hfresh p (le_refl p)
      · intro m q hm
        have := hpos m q hm
        omega
      · intro m q hm
        by_cases hd : dc q = some m
        · left
          exact hd
        · right; left
          exact ⟨hm, hd⟩
  | none =>
    -- cache miss: emitted inline and inserted into the encoder cache
    have hbits : (encodeList (.atom a) ec p).1 = encodeAtomBits a := by
      rw [encodeList_atom_miss a ec p hc]
    have hcache : (encodeList (.atom a) ec p).2 = ec.insert (.atom a) p := by
      rw [encodeList_atom_miss a ec p hc]
    rw [hbits] at hfuel hbound ⊢
    rw [hcache]
    have hbl : a.bit_len < 2 ^ 64 := by
      have h1 := encodeLenBits_length_pos a.bit_len
      have h2 := encodeAtomBits_length a
      omega
    refine ⟨dc.insert p (.atom a),
      decodeF_inline_atom a hwa hbl f p dc rest, ?_, ?_, ?_, ?_, ?_, ?_⟩
    · intro q v hv
      show (if q = p then some (Noun.atom a) else dc q) = some v
      by_cases hqp : q = p
      · rw [hqp] at hv
        rw [hfresh p (le_refl p)] at hv
        exact Option.noConfusion hv
      · rw [if_neg hqp]
        exact hv
    · intro q hq
      show (if q = p then some (Noun.atom a) else dc q) = dc q
      rw [if_neg (by omega)]
    · intro q hq
      have h2 := encodeAtomBits_length_pos a
      show (if q = p then some (Noun.atom a) else dc q) = none
      rw [if_neg (by omega)]
      exact hfresh q (by omega)
    · right
      show (if p = p then some (Noun.atom a) else dc p) = some (Noun.atom a)
      rw [if_pos rfl]
    · intro m q hm
      have h2 := encodeAtomBits_length_pos a
      have hm' : (if m = Noun.atom a then some p else ec m) = some q := hm
      by_cases hma : m = Noun.atom a
      · rw [if_pos hma] at hm'
        have : p = q := Option.some.inj hm'
        omega
      · rw [if_neg hma] at hm'
        have := hpos m q hm'
        omega
    · intro m q hm
      have hm' : (if m = Noun.atom a then some p else ec m) = some q := hm
      by_cases hma : m = Noun.atom a
      · rw [if_pos hma] at hm'
        have hqp : p = q := Option.some.inj hm'
        left
        show (if q = p then some (Noun.atom a) else dc q) = some m
        rw [if_pos (by omega), hma]
      · rw [if_neg hma] at hm'
        by_cases hd : dc q = some m
        · left
          show (if q = p then some (Noun.atom a) else dc q) = some m
          rw [if_neg (by have := hpos m q hm'; omega)]
          exact hd
        · right; left
          exact ⟨hm', hd⟩

/-- The decoder mirrors the encoder on cells. -/
theorem decSpec_cell (hh tt : Noun) (ihh : DecSpec hh) (iht : DecSpec tt) :
    DecSpec (.cell hh tt) := by
  intro ec p dc rest fuel hwf hfuel hbound hpos hcov hfresh
  obtain ⟨f, rfl⟩ : ∃ f, fuel = f + 1 := ⟨fuel - 1, by omega⟩
  match hc : ec (.cell hh tt) with
  | some q₀ =>
    -- cache hit: always a back-reference
    have hbits : (encodeList (.cell hh tt) ec p).1 = backrefBits q₀ := by
      rw [encodeList_hit _ _ _ _ hc]
      show hitBits (.cell hh tt) q₀ = backrefBits q₀
      simp only [hitBits]
      rw [backrefBits_eq]
    have hcache : (encodeList (.cell hh tt) ec p).2 = ec := by
      rw [encodeList_hit _ _ _ _ hc]
    rw [hbits] at hfuel hbound ⊢
    rw [hcache]
    have hq₀p : q₀ < p := hpos _ _ hc
    have hlen1 : 1 ≤ (backrefBits q₀).length := backrefBits_length_pos q₀
    have hq64 : q₀ < 2 ^ 64 := by omega
    have hdcq : dc q₀ = some (.cell hh tt) := by
      rcases hcov _ _ hc with h | h
      · exact h
      · exact absurd h (lt_irrefl _)
    refine ⟨dc, decodeF_backref_hit q₀ hq64 (.cell hh tt) f p dc hdcq rest,
      fun q v hv => hv, fun q _ => rfl, ?_, ?_, ?_, ?_⟩
    · intro q hq
      exact hfresh q (by omega)
    · left
      exact hfresh p (le_refl p)
    · intro m q hm
      have := hpos m q hm
      omega
    · intro m q hm
      by_cases hd : dc q = some m
      · left
        exact hd
      · right; left
        exact ⟨hm, hd⟩
  | none =>
    -- fresh cell: tag 10, then head, then tail
    obtain ⟨bh, ec2, hH⟩ :
        ∃ x y, encodeList hh (ec.insert (.cell hh tt) p) (p + 2) = (x, y) := ⟨_, _, rfl⟩
    obtain ⟨bt, ec3, hT⟩ :
        ∃ x y, encodeList tt ec2 (p + 2 + bh.length) = (x, y) := ⟨_, _, rfl⟩
    have hbitsEq := encodeList_cell_miss hh tt ec p hc
    simp only [hH] at hbitsEq
    simp only [hT] at hbitsEq
    have hbits : (encodeList (.cell hh tt) ec p).1 = true :: false :: (bh ++ bt) := by
      rw [hbitsEq]
    have hcache : (encodeList (.cell hh tt) ec p).2 = ec3 := by
      rw [hbitsEq]
    rw [hbits] at hfuel hbound ⊢
    rw [hcache]
    have hlen : (true :: false :: (bh ++ bt)).length = 2 + bh.length + bt.length := by
      simp [List.length_append]
      omega
    rw [hlen] at hfuel hbound
    have hbhne : bh ≠ [] := by
      have := (encodeList_getLast hh (ec.insert (.cell hh tt) p) (p + 2) hwf.1).1
      rw [hH] at this
      exact this
    have hbhpos : 1 ≤ bh.length := by
      cases hbhE : bh with
      | nil => exact absurd hbhE hbhne
      | cons x xs => simp [hbhE]
    have hbtne : bt ≠ [] := by
      have := (encodeList_getLast tt ec2 (p + 2 + bh.length) hwf.2).1
      rw [hT] at this
      exact this
    have hbtpos : 1 ≤ bt.length := by
      cases hbtE : bt with
      | nil => exact absurd hbtE hbtne
      | cons x xs => simp [hbtE]
    -- head IH
    have hposH : ∀ m q, (ec.insert (.cell hh tt) p) m = some q → q < p + 2 := by
      intro m q hm
      have hm' : (if m = Noun.cell hh tt then some p else ec m) = some q := hm
      by_cases hmc : m = Noun.cell hh tt
      · rw [if_pos hmc] at hm'
        have := Option.some.inj hm'
        omega
      · rw [if_neg hmc] at hm'
        have := hpos m q hm'
        omega
    have hcovH : ∀ m q, (ec.insert (.cell hh tt) p) m = some q →
        dc q = some m ∨ hh.size < m.size := by
      intro m q hm
      have hm' : (if m = Noun.cell hh tt then some p else ec m) = some q := hm
      by_cases hmc : m = Noun.cell hh tt
      · right
        rw [hmc]
        exact size_head_lt hh tt
      · rw [if_neg hmc] at hm'
        rcases hcov m q hm' with h | h
        · left
          exact h
        · right
          have := size_head_lt hh tt
          omega
    have ihh' := ihh (ec.insert (.cell hh tt) p) (p + 2) dc (bt ++ rest) f hwf.1
    simp only [hH] at ihh'
    obtain ⟨dcH, hrunH, hgrowH, hlowH, hfreshH, hselfH, hpos2H, hcov2H⟩ :=
      ihh' (by omega) (by omega) hposH hcovH
        (fun q hq => hfresh q (by omega))
    -- tail IH, with the head freshly mirrored at its tag position
    have hcovT : ∀ m q, ec2 m = some q →
        (dcH.insert (p + 2) hh) q = some m ∨ tt.size < m.size := by
      intro m q hm
      rcases hcov2H m q hm with hcase | hcase | hcase
      · by_cases hq2 : q = p + 2
        · rw [hq2] at hcase
          rcases hselfH with hnone | hsome
          · rw [hnone] at hcase
            exact Option.noConfusion hcase
          · rw [hsome] at hcase
            have : hh = m := Option.some.inj hcase
            left
            show (if q = p + 2 then some hh else dcH q) = some m
            rw [if_pos hq2, this]
        · left
          show (if q = p + 2 then some hh else dcH q) = some m
          rw [if_neg hq2]
          exact hcase
      · obtain ⟨hins, hdq⟩ := hcase
        have hm' : (if m = Noun.cell hh tt then some p else ec m) = some q := hins
        by_cases hmc : m = Noun.cell hh tt
        · right
          rw [hmc]
          exact size_tail_lt hh tt
        · rw [if_neg hmc] at hm'
          rcases hcov m q hm' with h | h
          · exact absurd h hdq
          · right
            have := size_tail_lt hh tt
            omega
      · obtain ⟨hm1, hq1⟩ := hcase
        left
        show (if q = p + 2 then some hh else dcH q) = some m
        rw [if_pos hq1, hm1]
    have hfreshT : ∀ q, p + 2 + bh.length ≤ q → (dcH.insert (p + 2) hh) q = none := by
      intro q hq
      show (if q = p + 2 then some hh else dcH q) = none
      rw [if_neg (by omega)]
      exact hfreshH q hq
    have iht' := iht ec2 (p + 2 + bh.length) (dcH.insert (p + 2) hh) rest f hwf.2
    simp only [hT] at iht'
    obtain ⟨dcT, hrunT, hgrowT, hlowT, hfreshT2, hselfT, hpos2T, hcov2T⟩ :=
      iht' (by omega) (by omega) hpos2H hcovT hfreshT
    -- assemble the run
    have hstream : (true :: false :: (bh ++ bt)) ++ rest =
        true :: false :: (bh ++ (bt ++ rest)) := by
      simp
    rw [hstream, decodeF_cell_eq f p dc (bh ++ (bt ++ rest))]
    simp only [hrunH, hrunT]
    have hPeq : p + (true :: false :: (bh ++ bt)).length = p + 2 + bh.length + bt.length := by
      rw [hlen]
      omega
    rw [hPeq]
    refine ⟨dcT.insert (p + 2 + bh.length) tt, rfl, ?_, ?_, ?_, ?_, ?_, ?_⟩
    · -- the decoder cache only grows
      intro q v hv
      show (if q = p + 2 + bh.length then some tt else dcT q) = some v
      rw [if_neg (by
        intro hq
        rw [hq] at hv
        rw [hfresh _ (by omega)] at hv
        exact Option.noConfusion hv)]
      apply hgrowT
      show (if q = p + 2 then some hh else dcH q) = some v
      by_cases hq2 : q = p + 2
      · rw [hq2] at hv
        rw [hfresh _ (by omega)] at hv
        exact Option.noConfusion hv
      · rw [if_neg hq2]
        exact hgrowH q v hv
    · -- no new entries below p
      intro q hq
      show (if q = p + 2 + bh.length then some tt else dcT q) = dc q
      rw [if_neg (by omega)]
      rw [hlowT q (by omega)]
      show (if q = p + 2 then some hh else dcH q) = dc q
      rw [if_neg (by omega)]
      exact hlowH q (by omega)
    · -- no entries at or beyond the end of this encoding
      intro q hq
      show (if q = p + 2 + bh.length then some tt else dcT q) = none
      rw [if_neg (by omega)]
      exact hfreshT2 q (by omega)
    · -- the tag position of this cell is not (yet) in the decoder cache
      left
      show (if p = p + 2 + bh.length then some tt else dcT p) = none
      rw [if_neg (by omega)]
      rw [hlowT p (by omega)]
      show (if p = p + 2 then some hh else dcH p) = none
      rw [if_neg (by omega)]
      rw [hlowH p (by omega)]
      exact hfresh p (le_refl p)
    · -- all encoder-cache positions stay below the end
      intro m q hm
      have := hpos2T m q hm
      omega
    · -- coverage of the output encoder cache
      intro m q hm
      rcases hcov2T m q hm with hcase | hcase | hcase
      · -- mirrored in dcT
        by_cases hqT : q = p + 2 + bh.length
        · rw [hqT] at hcase
          rcases hselfT with hnone | hsome
          · rw [hnone] at hcase
            exact Option.noConfusion hcase
          · rw [hsome] at hcase
            have : tt = m := Option.some.inj hcase
            left
            show (if q = p + 2 + bh.length then some tt else dcT q) = some m
            rw [if_pos hqT, this]
        · left
          show (if q = p + 2 + bh.length then some tt else dcT q) = some m
          rw [if_neg hqT]
          exact hcase
      · -- was an ec2 entry not mirrored in dcH.insert (p+2) hh
        obtain ⟨hec2m, hd2⟩ := hcase
        rcases hcov2H m q hec2m with hcase2 | hcase2 | hcase2
        · -- mirrored in dcH: contradicts non-mirroring in the insert
          exfalso
          apply hd2
          show (if q = p + 2 then some hh else dcH q) = some m
          by_cases hq2 : q = p + 2
          · rw [hq2] at hcase2
            rcases hselfH with hnone | hsome
            · rw [hnone] at hcase2
              exact Option.noConfusion hcase2
            · rw [hsome] at hcase2
              have : hh = m := Option.some.inj hcase2
              rw [if_pos hq2, this]
          · rw [if_neg hq2]
            exact hcase2
        · -- an entry of ec.insert (.cell hh tt) p not mirrored in dc
          obtain ⟨hins, hdq⟩ := hcase2
          have hm' : (if m = Noun.cell hh tt then some p else ec m) = some q := hins
          by_cases hmc : m = Noun.cell hh tt
          · rw [if_pos hmc] at hm'
            right; right
            exact ⟨hmc, (Option.some.inj hm').symm⟩
          · rw [if_neg hmc] at hm'
            right; left
            exact ⟨hm', hdq⟩
        · -- the head's own fresh entry: mirrored by the insert at p + 2
          exfalso
          obtain ⟨hm1, hq1⟩ := hcase2
          apply hd2
          show (if q = p + 2 then some hh else dcH q) = some m
          rw [if_pos hq1, hm1]
      · -- the tail's own fresh entry: mirrored by the insert at its position
        obtain ⟨hm1, hq1⟩ := hcase
        left
        show (if q = p + 2 + bh.length then some tt else dcT q) = some m
        rw [if_pos hq1, hm1]

/-- The decoder inverts the encoder on every well-formed noun. -/
theorem decode_encode (n : Noun) : DecSpec n := by
  induction n with
  | atom a => exact decSpec_atom a
  | cell hh tt ihh iht => exact decSpec_cell hh tt ihh iht

/-! ## The round-trip (claim C1)

`into_atom` stores the builder's bytes with the recomputed `bit_len`; when
the pushed stream ends in a 1 bit — every jam stream of a spec-§3 noun does —
the stored `bit_len` is the number of pushed bits, so the jammed atom's bit
iterator replays exactly the emitted stream and `decode_encode` applies.

The claim's unrestricted "for every noun" fails, however: `Atom::from(&str)`
builds atoms whose byte vector keeps trailing zero bytes while `bit_len`
counts only up to the last byte's top set bit, `jam` serialises only
`bit_len` bits, and `PartialEq for Atom` compares the full byte vectors, so
such an atom does not survive the trip.  For `Atom::from("a\x00")` (bytes
`[97, 0]`, `bit_len` 8) the emitted stream is 17 bits long but ends in the
zero top bit of byte `97`, `into_atom` then reports `bit_len` 16, cue runs
out of bits mid-atom and returns `Error::AtomConstruction`. -/

theorem iterBits_built (l : List Bool) :
    (Atom.mk (bitsToBytes l) l.length).iterBits = l := by
  apply List.ext_getElem
  · rw [iterBits_length]
  · intro i h1 h2
    have hgd : (Atom.mk (bitsToBytes l) l.length).iterBits.getD i false = l.getD i false := by
      rw [iterBits_getD]
      show (if i < l.length then ((bitsToBytes l).getD (i / 8) 0).testBit (i % 8) else false) =
        l.getD i false
      rw [if_pos h2]
      rw [getD_bitsToBytes (i / 8) l (i % 8) (Nat.mod_lt _ (by omega))]
      congr 1
      omega
    rw [List.getD_eq_getElem?_getD, List.getD_eq_getElem?_getD,
      List.getElem?_eq_getElem h1, List.getElem?_eq_getElem h2] at hgd
    simpa using hgd

/-- C1 counterexample: the noun `Atom::from("a\x00").into_noun()` — atom
bytes `[97, 0]` with `bit_len` 8, constructible in the source — does not
round-trip: `cue(jam(n))` is an `AtomConstruction` error, not `n`, because
`jam` serialises only the 8 counted bits of the 16-bit byte buffer. -/
theorem cue_jam_counterexample :
    Noun.cue (Noun.jam (.atom (Atom.fromStrBytes [97, 0]))) ≠
      .ok (.atom (Atom.fromStrBytes [97, 0])) := by
  have hbl : bitLen [97, 0] = 8 := by simp [bitLen]
  have hbad : Atom.fromStrBytes [97, 0] = ⟨[97, 0], 8⟩ := by
    unfold Atom.fromStrBytes
    rw [hbl]
  rw [hbad]
  have hsize8 : Nat.size 8 = 4 := by
    have h1 : Nat.size 8 ≤ 4 := Nat.size_le.mpr (by norm_num)
    have h2 : 3 < Nat.size 8 := Nat.lt_size.mpr (by norm_num)
    omega
  have hlow8 : lenLowBits 8 = [false, false, false] := by simp [lenLowBits]
  have hlen8 : encodeLenBits 8 = [false, false, false, false, true, false, false, false] := by
    unfold encodeLenBits
    rw [hsize8, hlow8]
    rfl
  have hiter : (Atom.mk [97, 0] 8).iterBits =
      [true, false, false, false, false, true, true, false] := by decide
  have hjbits : Noun.jamBits (.atom ⟨[97, 0], 8⟩) =
      [false, false, false, false, false, true, false, false, false,
       true, false, false, false, false, true, true, false] := by
    unfold Noun.jamBits
    rw [encodeList_atom_miss _ _ _ rfl]
    show encodeAtomBits ⟨[97, 0], 8⟩ = _
    unfold encodeAtomBits
    show false :: (encodeLenBits 8 ++ (Atom.mk [97, 0] 8).iterBits) = _
    rw [hlen8, hiter]
    rfl
  have hbb : bitsToBytes [false, false, false, false, false, true, false, false, false,
       true, false, false, false, false, true, true, false] = [32, 194, 0] := by
    simp [bitsToBytes, bitsToNat]
  have hjam : Noun.jam (.atom (⟨[97, 0], 8⟩ : Atom)) = ⟨[32, 194, 0], 16⟩ := by
    rw [jam_builder, hjbits, pushAll_new]
    unfold Builder.intoAtom
    show (⟨bitsToBytes [false, false, false, false, false, true, false, false, false,
       true, false, false, false, false, true, true, false],
      bitLen (bitsToBytes [false, false, false, false, false, true, false, false, false,
       true, false, false, false, false, true, true, false])⟩ : Atom) = _
    rw [hbb]
    simp [bitLen]
  rw [hjam]
  decide

/-- C1 (amended): the round-trip `cue(jam(n)) = n` holds for every noun all
of whose atoms are canonical (spec-§3 well-formed: `u8` bytes, no trailing
zero byte, derived `bit_len` — the invariant every constructor except
`From<&str>`/`From<String>` maintains), under the embedding's explicit
rendering of the source's implicit `u64`-position capacity; sharing plays no
role because both caches compare nouns structurally. -/
theorem cue_jam_roundtrip (n : Noun) (hwf : n.Wf)
    (hsz : (Noun.jamBits n).length ≤ 2 ^ 64) :
    Noun.cue (Noun.jam n) = .ok n := by
  have hL : (encodeList n ECache.empty 0).1 = Noun.jamBits n := rfl
  have hlast := (encodeList_getLast n ECache.empty 0 hwf).2
  rw [hL] at hlast
  have hjam : Noun.jam n = ⟨bitsToBytes (Noun.jamBits n), (Noun.jamBits n).length⟩ := by
    rw [jam_builder, pushAll_new]
    unfold Builder.intoAtom
    show (⟨bitsToBytes (Noun.jamBits n), bitLen (bitsToBytes (Noun.jamBits n))⟩ : Atom) = _
    rw [bitLen_bitsToBytes_last_true _ hlast]
  rw [hjam]
  obtain ⟨dc', hrun, -, -, -, -, -, -⟩ :=
    decode_encode n ECache.empty 0 DCache.empty [] ((Noun.jamBits n).length + 1) hwf
      (by rw [hL]; omega)
      (by rw [hL]; omega)
      (fun m q hm => Option.noConfusion hm)
      (fun m q hm => Option.noConfusion hm)
      (fun q _ => rfl)
  rw [List.append_nil, hL] at hrun
  show (match decodeF ((Noun.jamBits n).length + 1) (Atom.mk (bitsToBytes (Noun.jamBits n))
        (Noun.jamBits n).length).iterBits 0 DCache.empty with
      | Except.error e => (Except.error e : Except Error Noun)
      | Except.ok (m, _, _, _) => Except.ok m) = Except.ok n
  rw [iterBits_built (Noun.jamBits n), hrun]

/-- Closed witness for `cue_jam_roundtrip`: the atom `1` (bytes `[1]`,
`bit_len` 1) satisfies both hypotheses and round-trips. -/
theorem cue_jam_roundtrip_witness :
    (Noun.atom ⟨[1], 1⟩).Wf ∧ (Noun.jamBits (.atom ⟨[1], 1⟩)).length ≤ 2 ^ 64 ∧
      Noun.cue (Noun.jam (.atom ⟨[1], 1⟩)) = .ok (.atom ⟨[1], 1⟩) := by
  have hwf : (Noun.atom (⟨[1], 1⟩ : Atom)).Wf := by
    refine ⟨?_, ?_, ?_⟩
    · intro b hb
      simp at hb
      omega
    · simp
    · show (1 : Nat) = bitLen [1]
      simp [bitLen]
  have hsz : (Noun.jamBits (.atom (⟨[1], 1⟩ : Atom))).length ≤ 2 ^ 64 := by
    have hjb : Noun.jamBits (.atom (⟨[1], 1⟩ : Atom)) = [false, false, true, true] := by
      unfold Noun.jamBits
      rw [encodeList_atom_miss _ _ _ rfl]
      show encodeAtomBits ⟨[1], 1⟩ = _
      unfold encodeAtomBits
      show false :: (encodeLenBits 1 ++ (Atom.mk [1] 1).iterBits) = _
      have h1 : encodeLenBits 1 = [false, true] := by
        unfold encodeLenBits
        rw [Nat.size_one, lenLowBits]
        rfl
      have h2 : (Atom.mk [1] 1).iterBits = [true] := by decide
      rw [h1, h2]
      rfl
    rw [hjb]
    norm_num
  exact ⟨hwf, hsz, cue_jam_roundtrip _ hwf hsz⟩

/-! ## Dangling back-references (claim C8) -/

/-- C8: a back-reference whose decoded index is not in the decoder cache
fails the decode with `CacheMiss` (the code's name for the spec's
`DanglingBackReference`): at any decoder state (any cache, any position, any
fuel), a stream whose next entity is tag `11` followed by an index atom that
is absent from the cache makes `decode` return the error — and since `cue`
runs `decode` with the empty cache and propagates every error, a whole-stream
decode beginning with such a back-reference returns the error and no noun. -/
theorem cue_dangling_backref (rest : List Bool) (ia : Atom) (rem : List Bool) (i : Nat)
    (hA : decodeAtom rest = .ok (ia, rem)) (hU : ia.asU64 = some i) :
    (∀ (fuel pos : Nat) (dc : DCache), dc i = none →
        decodeF (fuel + 1) (true :: true :: rest) pos dc = .error .cacheMiss) ∧
    (∀ a : Atom, a.iterBits = true :: true :: rest →
        Noun.cue a = .error .cacheMiss) := by
  have hbr : ∀ (fuel pos : Nat) (dc : DCache), dc i = none →
      decodeF (fuel + 1) (true :: true :: rest) pos dc = .error .cacheMiss := by
    intro fuel pos dc hmiss
    simp only [decodeF, if_true, hA, hU, hmiss]
  refine ⟨hbr, ?_⟩
  intro a hiter
  unfold Noun.cue
  rw [hiter, hbr a.bit_len 0 DCache.empty rfl]

theorem cue_dangling_backref_witness :
    decodeAtom [true] = .ok (Atom.fromNat 0, []) ∧
      Noun.cue (Atom.fromNat 7) = .error .cacheMiss := by
  refine ⟨rfl, ?_⟩
  apply (cue_dangling_backref [true] (Atom.fromNat 0) [] 0 rfl
    (asU64_fromNat 0 (by norm_num))).2
  rw [iterBits_fromNat]
  show natBits 7 = [true, true, true]
  unfold natBits
  rw [size_eq_succ_of 7 2 (by norm_num) (by norm_num)]
  rfl

/-! ## Axis addressing (claims C5, C6, C10) -/

theorem get_cell_zero (h t : Noun) : (Noun.cell h t).get 0 = some (Noun.cell h t) := rfl

theorem get_cell_one (h t : Noun) : (Noun.cell h t).get 1 = some (Noun.cell h t) := rfl

theorem get_cell_two (h t : Noun) : (Noun.cell h t).get 2 = some h := rfl

theorem get_cell_three (h t : Noun) : (Noun.cell h t).get 3 = some t := rfl

theorem get_atom (a : Atom) (k : Nat) : (Noun.atom a).get k = none := rfl

theorem get_cell_rec (h t : Noun) (axis : Nat) (h4 : 4 ≤ axis) :
    (Noun.cell h t).get axis =
      if axis % 2 = 0 then h.get (axis / 2) else t.get (axis / 2) := by
  match axis, h4 with
  | n + 4, _ =>
    match n with
    | 0 => rfl
    | 1 => rfl
    | k + 2 => rfl

/-- C10: on a cell, axis `0` is accepted and returns the whole cell, the same
result as axis `1` (the `0 | 1 => Some(self)` arm of `get`), while on an atom
axis `0` returns `None`. -/
theorem get_axis_zero (h t : Noun) (a : Atom) :
    (Noun.cell h t).get 0 = some (Noun.cell h t) ∧
      (Noun.cell h t).get 0 = (Noun.cell h t).get 1 ∧
      (Noun.atom a).get 0 = none :=
  ⟨rfl, rfl, rfl⟩

/-- C5 counterexample: `get` applied to an atom at axis 1 returns `None`, not
the whole noun — the `get` implementations return `None` for *every* axis on
an atom, so "for every noun n, get(n, 1) returns the whole noun n" fails on
atoms. -/
theorem get_one_on_atom_counterexample :
    (Noun.atom (Atom.fromNat 0)).get 1 ≠ some (Noun.atom (Atom.fromNat 0)) := by
  decide

/-- C5 amended: axis 1 returns the whole noun for every *cell*; on a cell,
axis 2 returns the head and axis 3 the tail; and on an atom `get` returns no
position for every axis (including 0 and 1, not only `k > 1`). -/
theorem get_base_cases_amended (h t : Noun) (a : Atom) (k : Nat) :
    (Noun.cell h t).get 1 = some (Noun.cell h t) ∧
      (Noun.cell h t).get 2 = some h ∧
      (Noun.cell h t).get 3 = some t ∧
      (Noun.atom a).get k = none :=
  ⟨rfl, rfl, rfl, rfl⟩

/-- C6 counterexample: for the cell `c = [0 1]` and the even axis `n = 2`,
`get(c, 2)` is the head atom `0` but `get(head(c), 1)` is `None` (axis 1 on
an atom yields `None`), so the axis equivalence fails at `n = 2` with an atom
head. -/
theorem get_axis_equiv_counterexample :
    (Noun.cell (Noun.atom (Atom.fromNat 0)) (Noun.atom (Atom.fromNat 1))).get 2 ≠
      (Noun.atom (Atom.fromNat 0)).get (2 / 2) := by
  decide

/-- C6 amended: for every cell `c` and axis `n ≥ 2`, the equation
`get(c, n) = get(head c, n / 2)` (even `n`) resp. `get(c, n) = get(tail c,
n / 2)` (odd `n`) holds for every `n ≥ 4`, and at `n = 2` resp. `n = 3`
exactly under the extra assumption that the head resp. tail is itself a cell
(otherwise the left side is `some head` / `some tail` while the right side is
`None`). -/
theorem get_axis_equiv_amended (h t : Noun) (n : Nat) (hn : 2 ≤ n) :
    (n % 2 = 0 → (4 ≤ n ∨ h.isCell = true) →
      (Noun.cell h t).get n = h.get (n / 2)) ∧
    (n % 2 = 1 → (4 ≤ n ∨ t.isCell = true) →
      (Noun.cell h t).get n = t.get (n / 2)) := by
  constructor
  · intro heven hside
    rcases hside with h4 | hc
    · rw [get_cell_rec _ _ _ h4, if_pos heven]
    · have : n = 2 ∨ 4 ≤ n := by omega
      rcases this with rfl | h4
      · cases h with
        | atom a => simp [Noun.isCell] at hc
        | cell hh ht => rfl
      · rw [get_cell_rec _ _ _ h4, if_pos heven]
  · intro hodd hside
    rcases hside with h4 | hc
    · rw [get_cell_rec _ _ _ h4, if_neg (by omega)]
    · have : n = 3 ∨ 4 ≤ n := by omega
      rcases this with rfl | h4
      · cases t with
        | atom a => simp [Noun.isCell] at hc
        | cell th tt => rfl
      · rw [get_cell_rec _ _ _ h4, if_neg (by omega)]

theorem get_axis_equiv_amended_witness :
    (2 : Nat) ≤ 4 ∧
      (Noun.cell (Noun.atom (Atom.fromNat 4)) (Noun.atom (Atom.fromNat 5))).get 4 =
        (Noun.atom (Atom.fromNat 4)).get 2 :=
  ⟨by norm_num,
    (get_axis_equiv_amended (Noun.atom (Atom.fromNat 4)) (Noun.atom (Atom.fromNat 5)) 4
      (by norm_num)).1 (by norm_num) (Or.inl (by norm_num))⟩

/-! ## Length overflow in `src/serdes.rs` (claim C7) -/

/-- C7: on a bit stream whose unary zero-prefix names a length register of 64
bits or more, `decode_len` in `src/serdes.rs` hits `todo!("too large")` — a
panic — instead of returning a `LengthOverflow` error value to the caller.
(The decoder in `src/noun.rs` has no such check at all and would hit an
overflowing `1 << (len_of_len - 1)` shift.)  The claimed error return does
not exist in the code. -/
theorem serdes_decode_len_overflow_panics (k : Nat) (rest : List Bool) (hk : 64 ≤ k) :
    serdesDecodeLen (List.replicate k false ++ true :: rest) = .panicTooLarge := by
  have hcount : ∀ (m : Nat) (r : List Bool),
      countZeros (List.replicate m false ++ true :: r) = some (m, r) := by
    intro m
    induction m with
    | zero => intro r; rfl
    | succ j ih =>
      intro r
      have hsplit : List.replicate (j + 1) false ++ true :: r =
          false :: (List.replicate j false ++ true :: r) := by
        simp [List.replicate_succ]
      rw [hsplit]
      show (match countZeros (List.replicate j false ++ true :: r) with
            | none => none
            | some (k, r) => some (k + 1, r)) = some (j + 1, r)
      rw [ih]
  simp only [serdesDecodeLen, hcount]
  rw [if_pos hk]

theorem serdes_decode_len_overflow_panics_witness :
    (64 : Nat) ≤ 64 ∧
      serdesDecodeLen (List.replicate 64 false ++ true :: []) = .panicTooLarge :=
  ⟨by norm_num, serdes_decode_len_overflow_panics 64 [] (by norm_num)⟩

end NounSpec
